import Mathlib

/-!
Verification development for the ArchPulse static-analysis engine.

The definitions below are shallow embeddings of the TypeScript sources:
`src/analyzers/graph.ts`, `src/analyzers/layers.ts`, `src/analyzers/index.ts`,
`src/dashboard/index.ts`, `src/parsers/base.ts`, `src/parsers/python.ts`,
`src/parsers/index.ts`, `src/parsers/go.ts`, `src/parsers/java.ts`,
`src/parsers/typescript.ts`.

JavaScript `Map` and `Set` are modelled as insertion-ordered association
lists; numbers used for division (coupling, instability) are modelled as
rationals; the Node `path` (posix) helpers and the fragment of JavaScript
`RegExp` behaviour actually exercised by the sources are modelled
explicitly as executable functions.
-/

namespace ArchPulse

/-! ### Insertion-ordered map (model of a JavaScript `Map`) -/

/-- Association list with JavaScript `Map` semantics: `mget` finds the first
binding, `mset` updates in place (keeping insertion position) or appends. -/
abbrev OMap (α : Type) := List (String × α)

def mget {α : Type} (m : OMap α) (k : String) : Option α :=
  match m with
  | [] => none
  | (k₂, v) :: rest => if k₂ = k then some v else mget rest k

def mgetD {α : Type} (m : OMap α) (k : String) (d : α) : α :=
  (mget m k).getD d

def mhas {α : Type} (m : OMap α) (k : String) : Bool :=
  (mget m k).isSome

def mset {α : Type} (m : OMap α) (k : String) (v : α) : OMap α :=
  match m with
  | [] => [(k, v)]
  | (k₂, v₂) :: rest => if k₂ = k then (k₂, v) :: rest else (k₂, v₂) :: mset rest k v

/-- Update the value at `k` in place if present; no-op otherwise (model of
`map.get(k)` followed by mutation of the retrieved object). -/
def mmodify {α : Type} (m : OMap α) (k : String) (f : α → α) : OMap α :=
  match m with
  | [] => []
  | (k₂, v) :: rest => if k₂ = k then (k₂, f v) :: rest else (k₂, v) :: mmodify rest k f

/-- Model of `Set.add` on an insertion-ordered set. -/
def addSet (l : List String) (x : String) : List String :=
  if l.contains x then l else l ++ [x]

/-- Model of `Set.delete` on an insertion-ordered set. -/
def removeSet (l : List String) (x : String) : List String :=
  l.filter (fun y => y ≠ x)

/-! ### String and posix path helpers (model of the Node `path` module and
the string methods used by the sources).  All string computations are kept
on `List Char` with structural recursion so that concrete runs reduce
inside the kernel. -/

/-- The characters of the JavaScript `\s` class occurring in source
text (ASCII range). -/
def isJsSpaceCh (c : Char) : Bool :=
  c ∈ ([' ', '\t', '\n', '\r', '\x0b', '\x0c'] : List Char)

/-- `s.toLowerCase()` (ASCII; the sources only case-fold path characters). -/
def lowerStr (s : String) : String :=
  ⟨s.data.map Char.toLower⟩

/-- `s.startsWith p`. -/
def strStartsWith (s p : String) : Bool :=
  p.data.isPrefixOf s.data

/-- `s.endsWith p`. -/
def strEndsWith (s p : String) : Bool :=
  p.data.reverse.isPrefixOf s.data.reverse

/-- `s.slice n` / `String.drop`. -/
def strDropN (s : String) (n : Nat) : String :=
  ⟨s.data.drop n⟩

/-- `s.length`. -/
def strLen (s : String) : Nat :=
  s.data.length

/-- JavaScript `split(sep)` for a one-character separator. -/
def splitCh (sep : Char) : List Char → List (List Char)
  | [] => [[]]
  | c :: rest =>
    match splitCh sep rest with
    | h :: t => if c = sep then [] :: h :: t else (c :: h) :: t
    | [] => if c = sep then [[], []] else [[c]]

/-- `Array.prototype.join(sep)` over character-list segments. -/
def joinCh (sep : Char) : List (List Char) → List Char
  | [] => []
  | [seg] => seg
  | seg :: rest => seg ++ sep :: joinCh sep rest

/-- Code-point (UTF) lexicographic comparison, as JavaScript `<` on
strings and the spec's "code-point" order. -/
def charListLt : List Char → List Char → Bool
  | [], [] => false
  | [], _ :: _ => true
  | _ :: _, [] => false
  | a :: as, b :: bs =>
    if a.toNat < b.toNat then true
    else if b.toNat < a.toNat then false
    else charListLt as bs

def strLt (a b : String) : Bool :=
  charListLt a.data b.data

/-- `true` iff the list is strictly ascending in code-point order. -/
def ascChain : List String → Bool
  | [] => true
  | [_] => true
  | a :: b :: t => strLt a b && ascChain (b :: t)

/-- `s.replace(/\\/g, '/')`. -/
def replaceBS (s : String) : String :=
  ⟨s.data.map (fun c => if c = '\\' then '/' else c)⟩

/-- The scan of Node's `path.posix.dirname`: walk indices `len-1 … 1`
looking for the last separator that has a non-separator after it. -/
def dirEndGo (cs : List Char) : Nat → Bool → Option Nat
  | 0, _ => none
  | i + 1, matched =>
    if cs.getD (i + 1) ' ' = '/' then
      if matched then dirEndGo cs i matched else some (i + 1)
    else dirEndGo cs i false

/-- Model of Node `path.posix.dirname`. -/
def dirname (s : String) : String :=
  if s.data.length = 0 then "." else
  let cs := s.data
  let hasRoot := cs.getD 0 ' ' = '/'
  match dirEndGo cs (cs.length - 1) true with
  | none => if hasRoot then "/" else "."
  | some e => if hasRoot ∧ e = 1 then "//" else ⟨cs.take e⟩

/-- The scan of Node's `path.posix.basename`: walk indices from the end,
recording the end of the last component and stopping at its separator.
Returns `(start, end?)`. -/
def baseGo (cs : List Char) : Nat → Option Nat → Nat × Option Nat
  | 0, e => (0, e)
  | j + 1, e =>
    if cs.getD j ' ' = '/' then
      match e with
      | some _ => (j + 1, e)
      | none => baseGo cs j none
    else
      match e with
      | some _ => baseGo cs j e
      | none => baseGo cs j (some (j + 1))

/-- Model of Node `path.posix.basename` (no extension argument). -/
def basename (s : String) : String :=
  let cs := s.data
  let p := baseGo cs cs.length none
  match p.2 with
  | none => ""
  | some e => ⟨(cs.take e).drop p.1⟩

/-- Segment resolution step of Node `path.posix.normalize`: drop empty and
`.` segments, resolve `..` (kept when relative and nothing to pop). -/
def normalizeSegs (isAbs : Bool) : List (List Char) → List (List Char) → List (List Char)
  | acc, [] => acc
  | acc, seg :: rest =>
    if seg = [] ∨ seg = ['.'] then normalizeSegs isAbs acc rest
    else if seg = ['.', '.'] then
      match acc.getLast? with
      | some l =>
        if l = ['.', '.'] then normalizeSegs isAbs (acc ++ [seg]) rest
        else normalizeSegs isAbs acc.dropLast rest
      | none =>
        if isAbs then normalizeSegs isAbs acc rest
        else normalizeSegs isAbs (acc ++ [seg]) rest
    else normalizeSegs isAbs (acc ++ [seg]) rest

/-- Model of the two-argument Node `path.posix.join`. -/
def pathJoin (a b : String) : String :=
  if a = "" ∧ b = "" then "." else
  let joined := if a = "" then b else if b = "" then a else a ++ "/" ++ b
  let isAbs := strStartsWith joined "/"
  let trail := strEndsWith joined "/"
  let core := joinCh '/' (normalizeSegs isAbs [] (splitCh '/' joined.data))
  let out := if isAbs then '/' :: core else core
  let out := if out = [] then (if isAbs then ['/'] else ['.']) else out
  if trail ∧ out.getLast? ≠ some '/' ∧ core ≠ [] then ⟨out ++ ['/']⟩ else ⟨out⟩

/-- Index of the last `'.'` in a character list, if any. -/
def lastDotIdx (cs : List Char) : Option Nat :=
  match cs.reverse.findIdx? (fun c => c = '.') with
  | none => none
  | some r => some (cs.length - 1 - r)

/-- `filePath.replace(/\.[^.]+$/, '')` from `graph.ts`: strip a final
extension (a dot followed by at least one non-dot character at the end). -/
def removeExtension (s : String) : String :=
  let cs := s.data
  match lastDotIdx cs with
  | none => s
  | some i => if i + 1 < cs.length then ⟨cs.take i⟩ else s

/-! ### Graph data model (`src/types/index.ts`) -/

/-- The `ImportType` union from `src/types/index.ts`. -/
inductive ImportType
  | es6Default
  | es6Named
  | es6Namespace
  | commonjs
  | dynamicImport
  | reExport
  | pythonImport
  | pythonFrom
  | goImport
  | javaImport
deriving DecidableEq, Repr

structure ImportStatement where
  source : String
  type : ImportType
  names : Option (List String) := none
  isRelative : Bool
  isExternal : Bool
  line : Nat
deriving DecidableEq, Repr

structure ParsedFile where
  filePath : String
  relativePath : String
  language : String
  imports : List ImportStatement
  exports : List String
  size : Nat
  errors : List String
deriving DecidableEq, Repr

structure DependencyNode where
  path : String
  name : String
  inDegree : Nat
  outDegree : Nat
  coupling : ℚ
  isEntryPoint : Bool
  language : String
  layer : Option String := none
deriving DecidableEq, Repr

structure DependencyEdge where
  «from» : String
  «to» : String
  weight : Nat
  importTypes : List ImportType
deriving DecidableEq, Repr

structure DependencyGraph where
  nodes : OMap DependencyNode
  edges : List DependencyEdge
  externalDependencies : List String
  circularDependencies : List (List String)
deriving DecidableEq, Repr

/-! ### Graph builder (`src/analyzers/graph.ts`) -/

structure GraphOptions where
  includeExternal : Bool
  resolveRelative : Bool
deriving DecidableEq, Repr

def defaultOptions : GraphOptions :=
  { includeExternal := false, resolveRelative := true }

/-- `Partial<GraphOptions>`. -/
structure PartialGraphOptions where
  includeExternal : Option Bool := none
  resolveRelative : Option Bool := none
deriving DecidableEq, Repr

/-- The spread `{ ...defaultOptions, ...options }`. -/
def mergeOptions (d : GraphOptions) (o : PartialGraphOptions) : GraphOptions :=
  { includeExternal := o.includeExternal.getD d.includeExternal,
    resolveRelative := o.resolveRelative.getD d.resolveRelative }

/-- `getModuleName` from `graph.ts`. -/
def getModuleName (filePath : String) : String :=
  let normalized := replaceBS filePath
  let b := basename normalized
  let withoutExt := removeExtension b
  if lowerStr withoutExt = "index" then
    let dir := basename (dirname normalized)
    if dir = "" then withoutExt else dir
  else withoutExt

/-- `isEntryPoint` from `graph.ts`. -/
def isEntryPoint (filePath : String) : Bool :=
  let normalized := replaceBS (lowerStr filePath)
  let b := basename normalized
  let name := removeExtension b
  ["index", "main", "app", "server", "cli", "entry"].contains name

/-- `getPackageName` from `graph.ts`. -/
def getPackageName (source : String) : String :=
  if strStartsWith source "@" then
    ⟨joinCh '/' ((splitCh '/' source.data).take 2)⟩
  else ⟨(splitCh '/' source.data).getD 0 []⟩

/-- Probe a list of keys in order, returning the first hit. -/
def firstHit (m : OMap String) : List String → Option String
  | [] => none
  | k :: rest =>
    match mget m k with
    | some v => some v
    | none => firstHit m rest

/-- The probe sequence of `resolveImport`: exact key, key without
extension, key with each of the common extensions appended, key as a
directory with an index file. -/
def resolveProbe (filePathMap : OMap String) (resolved : String) : Option String :=
  match mget filePathMap resolved with
  | some t => some t
  | none =>
    let withoutExt := removeExtension resolved
    match mget filePathMap withoutExt with
    | some t => some t
    | none =>
      match firstHit filePathMap
          ([".ts", ".tsx", ".js", ".jsx", ".py"].map (fun ext => resolved ++ ext)) with
      | some t => some t
      | none =>
        firstHit filePathMap
          [resolved ++ "/index", resolved ++ "/index.ts", resolved ++ "/index.js"]

/-- `resolveImport` from `graph.ts`. -/
def resolveImport (source fromFile projectRoot : String)
    (filePathMap : OMap String) : Option String :=
  let fromDir := dirname fromFile
  let resolved :=
    if strStartsWith source "." then
      let r := replaceBS (pathJoin fromDir source)
      let normalizedRoot := replaceBS projectRoot
      if strStartsWith r normalizedRoot then strDropN r (strLen normalizedRoot + 1) else r
    else source
  resolveProbe filePathMap (replaceBS resolved)

/-- Pass 1 of `buildDependencyGraph`: the node created for one file. -/
def mkNode (file : ParsedFile) : DependencyNode :=
  { path := file.relativePath,
    name := getModuleName file.relativePath,
    inDegree := 0,
    outDegree := 0,
    coupling := 0,
    isEntryPoint := isEntryPoint file.relativePath,
    language := file.language,
    layer := none }

def buildNodes (files : List ParsedFile) : OMap DependencyNode :=
  files.foldl (fun m f => mset m f.relativePath (mkNode f)) []

/-- One step of the lookup-map construction in `buildDependencyGraph`. -/
def addFileToPathMap (m : OMap String) (f : ParsedFile) : OMap String :=
  let normalized := replaceBS f.relativePath
  let m := mset m normalized f.relativePath
  let withoutExt := removeExtension normalized
  let m := if mhas m withoutExt then m else mset m withoutExt f.relativePath
  if lowerStr (basename withoutExt) = "index" then
    let dir := dirname normalized
    if mhas m dir then m else mset m dir f.relativePath
  else m

def mkFilePathMap (files : List ParsedFile) : OMap String :=
  files.foldl addFileToPathMap []

/-- Pass 2 of `buildDependencyGraph`, one import.  The state is the edge
map (keyed by `source|target`; the `edges` array of the source holds the
same objects in the same order, so it is recovered as the map's values)
together with the external-dependency set. -/
def processImport (projectRoot : String) (fpm : OMap String) (f : ParsedFile)
    (st : OMap DependencyEdge × List String) (imp : ImportStatement) :
    OMap DependencyEdge × List String :=
  if imp.isExternal then
    (st.1, addSet st.2 (getPackageName imp.source))
  else
    match resolveImport imp.source f.filePath projectRoot fpm with
    | none => st
    | some targetPath =>
      let sourcePath := f.relativePath
      let edgeKey := sourcePath ++ "|" ++ targetPath
      match mget st.1 edgeKey with
      | some edge =>
        let edge :=
          { edge with
            weight := edge.weight + 1,
            importTypes :=
              if edge.importTypes.contains imp.type then edge.importTypes
              else edge.importTypes ++ [imp.type] }
        (mset st.1 edgeKey edge, st.2)
      | none =>
        (mset st.1 edgeKey
          { «from» := sourcePath, «to» := targetPath, weight := 1,
            importTypes := [imp.type] }, st.2)

def buildEdges (files : List ParsedFile) (projectRoot : String)
    (fpm : OMap String) : OMap DependencyEdge × List String :=
  files.foldl (fun st f => f.imports.foldl (processImport projectRoot fpm f) st) ([], [])

/-- The in/out-degree pass of `buildDependencyGraph`. -/
def applyDegrees (nodes : OMap DependencyNode) (edges : List DependencyEdge) :
    OMap DependencyNode :=
  edges.foldl
    (fun m e =>
      mmodify (mmodify m e.«from» (fun n => { n with outDegree := n.outDegree + e.weight }))
        e.«to» (fun n => { n with inDegree := n.inDegree + e.weight }))
    nodes

/-- `Math.max(...degrees, 1)`. -/
def maxDegree (nodes : OMap DependencyNode) : Nat :=
  nodes.foldl (fun acc p => Nat.max acc (p.2.inDegree + p.2.outDegree)) 1

/-- The coupling pass of `buildDependencyGraph`. -/
def applyCoupling (nodes : OMap DependencyNode) (md : Nat) : OMap DependencyNode :=
  nodes.map (fun p =>
    (p.1, { p.2 with coupling := mkRat (p.2.inDegree + p.2.outDegree) md }))

/-! DFS cycle detection (`detectCircularDependencies` in `graph.ts`).  The
source's recursive `dfs` always returns `false` (its `return true` branch is
unreachable), so the early-exit is dropped.  The recursion is bounded by
explicit fuel; each nested call marks a previously unvisited node, so the
fuel chosen by `detectCircularDependencies` is never exhausted. -/

structure DfsState where
  visited : List String
  recStack : List String
  path : List String
  cycles : List (List String)
deriving DecidableEq, Repr

def buildAdjacency (nodes : OMap DependencyNode) (edges : List DependencyEdge) :
    OMap (List String) :=
  let adj := nodes.foldl (fun a p => mset a p.1 []) []
  edges.foldl (fun a e => mmodify a e.«from» (fun l => l ++ [e.«to»])) adj

/-- The body of the source's `for (const neighbor of …)` loop: the
recursive `dfs` call (at one less fuel) is passed in as `rec`. -/
def dfsNeighbors (rec : String → DfsState → DfsState) :
    List String → DfsState → DfsState
  | [], st => st
  | nb :: rest, st =>
    let st₁ :=
      if st.visited.contains nb then
        if st.recStack.contains nb then
          let cycleStart := st.path.indexOf nb
          let cycle := st.path.drop cycleStart ++ [nb]
          { st with cycles := st.cycles ++ [cycle] }
        else st
      else rec nb st
    dfsNeighbors rec rest st₁

def dfs (adj : OMap (List String)) : Nat → String → DfsState → DfsState
  | 0, _, st => st
  | fuel + 1, node, st =>
    let st₁ : DfsState :=
      { visited := addSet st.visited node,
        recStack := addSet st.recStack node,
        path := st.path ++ [node],
        cycles := st.cycles }
    let st₂ := dfsNeighbors (dfs adj fuel) (mgetD adj node []) st₁
    { visited := st₂.visited,
      recStack := removeSet st₂.recStack node,
      path := st₂.path.dropLast,
      cycles := st₂.cycles }

def detectCircularDependencies (nodes : OMap DependencyNode)
    (edges : List DependencyEdge) : List (List String) :=
  let adj := buildAdjacency nodes edges
  let fuel := nodes.length + edges.length + 1
  let final := nodes.foldl
    (fun st p => if st.visited.contains p.1 then st else dfs adj fuel p.1 st)
    { visited := [], recStack := [], path := [], cycles := [] }
  final.cycles

/-- `buildDependencyGraph` from `graph.ts`.  The merged options `_opts` are
computed and, as in the source, never used. -/
def buildDependencyGraph (parsedFiles : List ParsedFile) (projectRoot : String)
    (options : PartialGraphOptions := {}) : DependencyGraph :=
  let _opts := mergeOptions defaultOptions options
  let nodes := buildNodes parsedFiles
  let filePathMap := mkFilePathMap parsedFiles
  let ee := buildEdges parsedFiles projectRoot filePathMap
  let edges := ee.1.map (fun p => p.2)
  let nodes := applyDegrees nodes edges
  let md := maxDegree nodes
  let nodes := applyCoupling nodes md
  let circularDependencies := detectCircularDependencies nodes edges
  { nodes := nodes, edges := edges,
    externalDependencies := ee.2,
    circularDependencies := circularDependencies }

/-! ### Glob → regex conversion (`groupingToLayerRule` in
`src/analyzers/layers.ts`) and a model of the JavaScript `RegExp`
fragment it produces -/

/-- `pattern.replace(/\./g, '\\.')` — escape dots (character-wise). -/
def rep1 : List Char → List Char
  | [] => []
  | c :: rest => (if c = '.' then ['\\', '.'] else [c]) ++ rep1 rest

/-- `.replace(/\*\*/g, '.*')` — left-to-right non-overlapping. -/
def rep2 : List Char → List Char
  | [] => []
  | c :: rest =>
    if c = '*' then
      match rest with
      | c2 :: rest2 =>
        if c2 = '*' then '.' :: '*' :: rep2 rest2
        else c :: rep2 (c2 :: rest2)
      | [] => [c]
    else c :: rep2 rest

/-- `.replace(/\*/g, '[^/]*')` — note this also rewrites the `*` of any
`.*` produced by `rep2`, so `**` ends up as `.[^/]*`. -/
def rep3 : List Char → List Char
  | [] => []
  | c :: rest => (if c = '*' then ['[', '^', '/', ']', '*'] else [c]) ++ rep3 rest

/-- The regex source built by `groupingToLayerRule` (before the `^` anchor
and the `i` flag, which `jsRegexTestCI` models). -/
def globToRegexSrc (p : String) : String :=
  ⟨rep3 (rep2 (rep1 p.data))⟩

/-- Tokens of the regex fragment emitted by the conversion:
a (case-insensitive) literal, `.` and the starred class `[^/]*`. -/
inductive RTok
  | rlit (c : Char)
  | rany
  | rnonslash
deriving DecidableEq, Repr

/-- JavaScript line terminators, which `.` does not match. -/
def isLineTerm (c : Char) : Bool :=
  c = '\n' ∨ c = '\r' ∨ c = ' ' ∨ c = ' '

/-- Model of the `RegExp` compiler on the fragment emitted by
`globToRegexSrc`; characters that would change the regex's meaning
(groups, alternation, quantifiers, anchors, classes other than `[^/]*`)
are rejected rather than misread. -/
def regexHead (c : Char) : Nat :=
  if c = '\\' then 1
  else if c = '[' then 2
  else if c = '.' then 3
  else if c = '*' ∨ c = '(' ∨ c = ')' ∨ c = '|' ∨ c = '+' ∨ c = '?'
      ∨ c = '$' ∨ c = '^' then 4
  else 0

def parseRegexGo : Nat → List Char → Option (List RTok)
  | 0, l => if l = [] then some [] else none
  | fuel + 1, l =>
    match l with
    | [] => some []
    | c :: rest =>
      match regexHead c with
      | 1 =>
        (match rest with
         | c2 :: rest2 => (parseRegexGo fuel rest2).map (fun ts => .rlit c2 :: ts)
         | [] => none)
      | 2 =>
        (match rest with
         | '^' :: '/' :: ']' :: '*' :: rest2 =>
           (parseRegexGo fuel rest2).map (fun ts => .rnonslash :: ts)
         | _ => none)
      | 3 => (parseRegexGo fuel rest).map (fun ts => .rany :: ts)
      | 4 => none
      | _ => (parseRegexGo fuel rest).map (fun ts => .rlit c :: ts)

def parseRegex (l : List Char) : Option (List RTok) :=
  parseRegexGo (l.length + 1) l

/-- The iteration of a starred class `X*` followed by the continuation
`k`: match `k` after consuming any run of characters admitted by the
class (here: non-slash). -/
def nsLoop (k : List Char → Bool) : List Char → Bool
  | [] => k []
  | d :: s2 => k (d :: s2) || ((d ≠ '/') && nsLoop k s2)

/-- Like `nsLoop` but the class admits every character (`.*` of the
spec's `**` semantics). -/
def anyLoop (k : List Char → Bool) : List Char → Bool
  | [] => k []
  | d :: s2 => k (d :: s2) || anyLoop k s2

/-- Matcher for the token list, anchored at the start of the input but not
at its end (`RegExp.test` with a leading `^`), case-insensitive. -/
def matchToks : List RTok → List Char → Bool
  | [], _ => true
  | .rlit c :: ts, s =>
    match s with
    | d :: s2 => (c.toLower = d.toLower) && matchToks ts s2
    | [] => false
  | .rany :: ts, s =>
    match s with
    | d :: s2 => (!(isLineTerm d)) && matchToks ts s2
    | [] => false
  | .rnonslash :: ts, s => nsLoop (matchToks ts) s

/-- Model of `new RegExp('^' + src, 'i').test s`. -/
def jsRegexTestCI (src : String) (s : String) : Bool :=
  match parseRegex src.data with
  | some ts => matchToks ts s.data
  | none => false

/-- Grouping rule from the project configuration. -/
structure GroupingRule where
  pattern : String
  label : String
  color : Option String := none
deriving DecidableEq, Repr

/-- A layer-detection rule; `pattern` holds the regex source that the code
wraps as `new RegExp('^' + pattern, 'i')`. -/
structure LayerRule where
  pattern : String
  layer : String
  level : Nat
deriving DecidableEq, Repr

/-- `label.toLowerCase().replace(/\s+/g, '-')`, scanned with an
"inside a whitespace run" flag (a run contributes one dash). -/
def wsToDashGo (inWs : Bool) : List Char → List Char
  | [] => []
  | c :: rest =>
    if isJsSpaceCh c then
      if inWs then wsToDashGo true rest else '-' :: wsToDashGo true rest
    else c :: wsToDashGo false rest

def wsToDash (cs : List Char) : List Char :=
  wsToDashGo false cs

/-- `groupingToLayerRule` from `layers.ts`. -/
def groupingToLayerRule (grouping : GroupingRule) : LayerRule :=
  { pattern := globToRegexSrc grouping.pattern,
    layer := ⟨wsToDash (lowerStr grouping.label).data⟩,
    level := 0 }

/-- Glob matching as the spec describes it: `**` matches any run of
characters including slashes, `*` any run of non-slash characters,
other characters literally (case-insensitively), anchored at the start. -/
def globSpecMatch : List Char → List Char → Bool
  | [], _ => true
  | '*' :: '*' :: pt, s => anyLoop (globSpecMatch pt) s
  | '*' :: pt, s => nsLoop (globSpecMatch pt) s
  | c :: pt, s =>
    match s with
    | d :: s2 => (c.toLower = d.toLower) && globSpecMatch pt s2
    | [] => false

/-- Glob matching as the conversion actually behaves: `**` matches one
arbitrary character (other than a line terminator) followed by a run of
non-slash characters, `*` a run of non-slash characters, other characters
literally (case-insensitively), anchored at the start. -/
def globAmendedMatch : List Char → List Char → Bool
  | [], _ => true
  | c :: pt, s =>
    if c = '*' then
      match pt with
      | c2 :: pt2 =>
        if c2 = '*' then
          match s with
          | [] => false
          | d :: s2 => (!(isLineTerm d)) && nsLoop (globAmendedMatch pt2) s2
        else nsLoop (globAmendedMatch (c2 :: pt2)) s
      | [] => nsLoop (globAmendedMatch []) s
    else
      match s with
      | [] => false
      | d :: s2 => (c.toLower = d.toLower) && globAmendedMatch pt s2

/-- Token compilation of a plain glob, mirroring what the three replaces
plus the regex compiler produce. -/
def compileGlob : List Char → List RTok
  | [] => []
  | c :: rest =>
    if c = '*' then
      match rest with
      | c2 :: rest2 =>
        if c2 = '*' then .rany :: .rnonslash :: compileGlob rest2
        else .rnonslash :: compileGlob (c2 :: rest2)
      | [] => [.rnonslash]
    else .rlit c :: compileGlob rest

/-- Characters of a "plain" glob pattern: letters, digits and common path
characters plus `*`; they carry no other regex meaning. -/
def plainGlobChar (c : Char) : Bool :=
  (('a'.toNat ≤ c.toNat && c.toNat ≤ 'z'.toNat) ||
    ('A'.toNat ≤ c.toNat && c.toNat ≤ 'Z'.toNat) ||
    ('0'.toNat ≤ c.toNat && c.toNat ≤ '9'.toNat)) ||
  c ∈ (['/', '.', '-', '_', '*', '@'] : List Char)

def plainGlob (p : String) : Bool :=
  p.data.all plainGlobChar

/-! ### Layer classifier (`src/analyzers/layers.ts`) -/

structure ArchitectureLayer where
  id : String
  name : String
  modules : List String
  color : String
  level : Nat
deriving DecidableEq, Repr

/-- The nested count update of `inferLayerHierarchy`:
`imports.set(toLayer, (imports.get(toLayer) || 0) + edge.weight)`, applied
only when the outer map has an entry for `fromLayer`. -/
def layerImportsStep (graph : DependencyGraph) (m : OMap (OMap Nat))
    (e : DependencyEdge) : OMap (OMap Nat) :=
  match mget graph.nodes e.«from», mget graph.nodes e.«to» with
  | some sn, some tn =>
    match sn.layer, tn.layer with
    | some fromLayer, some toLayer =>
      if fromLayer = toLayer then m
      else mmodify m fromLayer (fun im => mset im toLayer (mgetD im toLayer 0 + e.weight))
    | _, _ => m
  | _, _ => m

def buildLayerImports (layers : List ArchitectureLayer) (graph : DependencyGraph) :
    OMap (OMap Nat) :=
  graph.edges.foldl (layerImportsStep graph)
    (layers.foldl (fun m l => mset m l.id []) [])

def buildIncomingCount (li : OMap (OMap Nat)) : OMap Nat :=
  li.foldl
    (fun acc p => p.2.foldl (fun acc2 q => mset acc2 q.1 (mgetD acc2 q.1 0 + q.2)) acc)
    []

/-- Stable insertion of `x` into a list sorted by `key` (equal keys keep
their existing order; `x` goes after them when inserted from the left). -/
def insSorted (key : ArchitectureLayer → Nat) (x : ArchitectureLayer) :
    List ArchitectureLayer → List ArchitectureLayer
  | [] => [x]
  | y :: ys => if key x ≤ key y then x :: y :: ys else y :: insSorted key x ys

/-- Model of the stable `Array.prototype.sort` with comparator
`(a, b) => key a - key b`. -/
def stableSortByKey (key : ArchitectureLayer → Nat) (l : List ArchitectureLayer) :
    List ArchitectureLayer :=
  l.foldr (insSorted key) []

/-- `inferLayerHierarchy` from `layers.ts`. -/
def inferLayerHierarchy (layers : List ArchitectureLayer) (graph : DependencyGraph) :
    List ArchitectureLayer :=
  let layerImports := buildLayerImports layers graph
  let incomingCount := buildIncomingCount layerImports
  let sortedLayers := stableSortByKey (fun l => mgetD incomingCount l.id 0) layers
  sortedLayers.enum.map (fun p => { p.2 with level := p.1 })

/-- The aggregate inbound weight of a layer, as the spec words it: the sum
of the weights of graph edges whose source and target nodes lie in
distinct layers and whose target lies in the given layer. -/
def inboundWeightSpec (graph : DependencyGraph) (layerId : String) : Nat :=
  graph.edges.foldl
    (fun acc e =>
      match mget graph.nodes e.«from», mget graph.nodes e.«to» with
      | some sn, some tn =>
        match sn.layer, tn.layer with
        | some fl, some tl =>
          if fl ≠ tl ∧ tl = layerId then acc + e.weight else acc
        | _, _ => acc
      | _, _ => acc)
    0

/-! ### Parser registry and dispatch (`src/parsers/index.ts`,
`src/parsers/base.ts`, `src/parsers/go.ts`, `src/parsers/java.ts`) -/

/-- The part of the `Parser` interface the registry dispatch uses. -/
structure Parser where
  name : String
  extensions : List String
  canParse : String → Bool

/-- `BaseParser.getExtension`: the match of `/\.[^.]+$/`, lowercased. -/
def getExtension (filePath : String) : String :=
  let cs := filePath.data
  match lastDotIdx cs with
  | none => ""
  | some i => if i + 1 < cs.length then lowerStr ⟨cs.drop i⟩ else ""

/-- `BaseParser.canParse`: extension membership. -/
def baseCanParse (exts : List String) (filePath : String) : Bool :=
  exts.contains (getExtension filePath)

def typescriptParser : Parser :=
  { name := "TypeScript/JavaScript",
    extensions := [".ts", ".tsx", ".js", ".jsx", ".mjs", ".cjs", ".mts", ".cts"],
    canParse := baseCanParse [".ts", ".tsx", ".js", ".jsx", ".mjs", ".cjs", ".mts", ".cts"] }

def pythonParserInfo : Parser :=
  { name := "Python",
    extensions := [".py", ".pyw", ".pyi"],
    canParse := baseCanParse [".py", ".pyw", ".pyi"] }

/-- `GoParser.canParse` uses `endsWith`, not the base implementation. -/
def goParser : Parser :=
  { name := "go",
    extensions := [".go"],
    canParse := fun filename => [".go"].any (fun ext => strEndsWith filename ext) }

def javaParser : Parser :=
  { name := "java",
    extensions := [".java"],
    canParse := fun filename => [".java"].any (fun ext => strEndsWith filename ext) }

/-- The registry from `src/parsers/index.ts`: only the TypeScript and
Python parsers are registered. -/
def parsers : List Parser :=
  [typescriptParser, pythonParserInfo]

def getParserForFile (filePath : String) : Option Parser :=
  parsers.find? (fun p => p.canParse filePath)

def canParseFile (filePath : String) : Bool :=
  (getParserForFile filePath).isSome

/-! ### Python parser (`src/parsers/python.ts`, with the shared pieces of
`src/parsers/base.ts`) -/

/-- The characters of the JavaScript `\s` class (ASCII range). -/
def isJsSpace (c : Char) : Bool :=
  isJsSpaceCh c

/-- JavaScript `String.prototype.trim`. -/
def jsTrim (cs : List Char) : List Char :=
  ((cs.dropWhile isJsSpace).reverse.dropWhile isJsSpace).reverse

/-- `BaseParser.isRelativeImport`. -/
def isRelativeImport (source : String) : Bool :=
  strStartsWith source "." || strStartsWith source "/"

/-- `BaseParser.isExternalImport`. -/
def isExternalImport (source : String) : Bool :=
  if strStartsWith source "." || strStartsWith source "/" then false
  else if strStartsWith source "@" then true
  else true

/-- `BaseParser.createImport` (optional `names` omitted). -/
def createImport (source : String) (type : ImportType) (line : Nat) : ImportStatement :=
  { source := source, type := type, names := none,
    isRelative := isRelativeImport source,
    isExternal := isExternalImport source,
    line := line }

/-- `BaseParser.getRelativePath`. -/
def getRelativePath (filePath projectRoot : String) : String :=
  let normalizedFile := replaceBS filePath
  let normalizedRoot := replaceBS projectRoot
  if strStartsWith normalizedFile normalizedRoot then
    let sliced := strDropN normalizedFile (strLen normalizedRoot)
    if strStartsWith sliced "/" then strDropN sliced 1 else sliced
  else normalizedFile

/-- `BaseParser.createEmptyResult`. -/
def createEmptyResult (filePath projectRoot language : String) : ParsedFile :=
  { filePath := filePath,
    relativePath := getRelativePath filePath projectRoot,
    language := language,
    imports := [], exports := [], size := 0, errors := [] }

/-- Skip to just past the first closing triple quote, if any. -/
def dropToClose (q : Char) : List Char → Option (List Char)
  | a :: b :: c :: rest =>
    if a = q ∧ b = q ∧ c = q then some rest else dropToClose q (b :: c :: rest)
  | _ => none

/-- `content.replace(/'''[\s\S]*?'''/g, '')` (and the `"""` variant):
strip non-greedy triple-quoted spans.  Each scan step advances at least
one character, so the fuel chosen by `stripTriple` always suffices. -/
def stripTripleGo (q : Char) : Nat → List Char → List Char
  | 0, l => l
  | fuel + 1, a :: b :: c :: rest =>
    if a = q ∧ b = q ∧ c = q then
      match dropToClose q rest with
      | some rest2 => stripTripleGo q fuel rest2
      | none => a :: b :: c :: rest
    else a :: stripTripleGo q fuel (b :: c :: rest)
  | _, other => other

def stripTriple (q : Char) (cs : List Char) : List Char :=
  stripTripleGo q (cs.length + 1) cs

/-- `content.replace(/#.*$/gm, '')`, scanned with an "inside a comment"
flag. -/
def stripCommentsGo : Bool → List Char → List Char
  | _, [] => []
  | true, c :: rest =>
    if c = '\n' then c :: stripCommentsGo false rest
    else stripCommentsGo true rest
  | false, c :: rest =>
    if c = '#' then stripCommentsGo true rest
    else c :: stripCommentsGo false rest

def stripComments (cs : List Char) : List Char :=
  stripCommentsGo false cs

/-- `content.replace(/'[^']*'/g, "''")` (and the `"` variant): collapse
single-line string literals to an empty literal.  Fueled like
`stripTripleGo`. -/
def stripQuotedGo (q : Char) : Nat → List Char → List Char
  | 0, l => l
  | fuel + 1, c :: rest =>
    if c = q then
      let k := (rest.takeWhile (fun d => d ≠ q)).length
      if k < rest.length then q :: q :: stripQuotedGo q fuel (rest.drop (k + 1))
      else c :: stripQuotedGo q fuel rest
    else c :: stripQuotedGo q fuel rest
  | _, [] => []

def stripQuoted (q : Char) (cs : List Char) : List Char :=
  stripQuotedGo q (cs.length + 1) cs

/-- `PythonParser.removeCommentsAndStrings`. -/
def removeCommentsAndStrings (content : String) : String :=
  let s1 := stripTriple '\'' content.data
  let s2 := stripTriple '"' s1
  let s3 := stripComments s2
  let s4 := stripQuoted '\'' s3
  ⟨stripQuoted '"' s4⟩

/-- `PythonParser.getLineNumber`. -/
def getLineNumber (content : String) (position : Nat) : Nat :=
  (content.data.take position).count '\n' + 1

/-- Characters matched by `[^#\n]`. -/
def isCaptureChar (c : Char) : Bool :=
  c ≠ '#' ∧ c ≠ '\n'

/-- Largest split `k ∈ [1, wn]` such that `[^#\n]+` can start at `l.drop k`
(the greedy backtracking of `\s+` before a `[^#\n]+` capture). -/
def bestSplitGo (l : List Char) : Nat → Option Nat
  | 0 => none
  | k + 1 =>
    match (l.drop (k + 1)).head? with
    | some c => if isCaptureChar c then some (k + 1) else bestSplitGo l k
    | none => bestSplitGo l k

/-- Model of matching `\s+([^#\n]+)` at the head of `l`; returns the
capture and the total number of characters consumed. -/
def matchSpacesCapture (l : List Char) : Option (List Char × Nat) :=
  let wn := (l.takeWhile isJsSpace).length
  if wn = 0 then none
  else
    match bestSplitGo l wn with
    | none => none
    | some k =>
      let cap := (l.drop k).takeWhile isCaptureChar
      some (cap, k + cap.length)

/-- Model of matching `^import\s+([^#\n]+)` at the head of `l`. -/
def matchSimpleAt (l : List Char) : Option (List Char × Nat) :=
  if l.take 6 = ("import".data) then
    (matchSpacesCapture (l.drop 6)).map (fun p => (p.1, 6 + p.2))
  else none

/-- The `regex.exec` loop for `PATTERNS.simpleImport` (`gm` flags): scan
positions left to right, attempting a match at each line start and
resuming after each match.  Fuel bounds the scan; each step advances at
least one character, so `cs.length + 1` fuel always suffices. -/
def scanSimpleGo (fuel : Nat) (l : List Char) (i : Nat) (atStart : Bool) :
    List (Nat × List Char) :=
  match fuel, l with
  | 0, _ => []
  | _, [] => []
  | f + 1, c :: rest =>
    if atStart then
      match matchSimpleAt (c :: rest) with
      | some p => (i, p.1) :: scanSimpleGo f ((c :: rest).drop p.2) (i + p.2) false
      | none => scanSimpleGo f rest (i + 1) (c = '\n')
    else scanSimpleGo f rest (i + 1) (c = '\n')

def scanSimple (cs : List Char) : List (Nat × List Char) :=
  scanSimpleGo (cs.length + 1) cs 0 true

/-- Characters matched by `[\w.]`. -/
def isWordDot (c : Char) : Bool :=
  c.isAlphanum ∨ c = '_' ∨ c = '.'

/-- One attempt at `^from\s+(\.{0,3}[\w.]*)\s+import\s+([^#\n]+)` with the
first `\s+` fixed to exactly `k` characters; returns
`(modulePath, capture2, total consumed)`. -/
def matchFromWith (l : List Char) (k : Nat) : Option (List Char × List Char × Nat) :=
  let l5 := l.drop k
  let cap1 := l5.takeWhile isWordDot
  let l6 := l5.drop cap1.length
  let w2 := (l6.takeWhile isJsSpace).length
  if w2 = 0 then none
  else
    let l7 := l6.drop w2
    if l7.take 6 = ("import".data) then
      (matchSpacesCapture (l7.drop 6)).map
        (fun p => (cap1, p.1, k + cap1.length + w2 + 6 + p.2))
    else none

/-- Backtracking over the length of the first `\s+` (largest first). -/
def matchFromSearch (l : List Char) : Nat → Option (List Char × List Char × Nat)
  | 0 => none
  | k + 1 =>
    match matchFromWith l (k + 1) with
    | some r => some r
    | none => matchFromSearch l k

/-- Model of matching the `from … import …` pattern at the head of `l`. -/
def matchFromAt (l : List Char) : Option (List Char × List Char × Nat) :=
  if l.take 4 = ("from".data) then
    let l4 := l.drop 4
    let w1 := (l4.takeWhile isJsSpace).length
    match matchFromSearch l4 w1 with
    | some (cap1, cap2, consumed) => some (cap1, cap2, 4 + consumed)
    | none => none
  else none

/-- The `regex.exec` loop for the `from`-import pattern, like
`scanSimpleGo`.  Records `(index, modulePath, capture2, consumed)`. -/
def scanFromGo (fuel : Nat) (l : List Char) (i : Nat) (atStart : Bool) :
    List (Nat × List Char × List Char × Nat) :=
  match fuel, l with
  | 0, _ => []
  | _, [] => []
  | f + 1, c :: rest =>
    if atStart then
      match matchFromAt (c :: rest) with
      | some (m, cap2, consumed) =>
        (i, m, cap2, consumed) ::
          scanFromGo f ((c :: rest).drop consumed) (i + consumed) false
      | none => scanFromGo f rest (i + 1) (c = '\n')
    else scanFromGo f rest (i + 1) (c = '\n')

def scanFrom (cs : List Char) : List (Nat × List Char × List Char × Nat) :=
  scanFromGo (cs.length + 1) cs 0 true

/-- Leftmost start of a `\s+as\s+` separator, for `split(/\s+as\s+/)`
(only the part before the first separator is used by the source). -/
def asSepAt (l : List Char) : Bool :=
  let w := (l.takeWhile isJsSpace).length
  decide (1 ≤ w) &&
    ((l.drop w).take 2 = ['a', 's'] &&
      match (l.drop (w + 2)).head? with
      | some c => isJsSpace c
      | none => false)

def splitAsFirstGo : List Char → List Char
  | [] => []
  | c :: rest => if asSepAt (c :: rest) then [] else c :: splitAsFirstGo rest

/-- `name.split(/\s+as\s+/)[0]`. -/
def splitAsFirst (cs : List Char) : List Char :=
  splitAsFirstGo cs

/-- Split a character list on a separator character (JS `split(',')`). -/
def splitOnChar (sep : Char) (cs : List Char) : List (List Char) :=
  splitCh sep cs

/-- `PythonParser.parseImportNames`. -/
def parseImportNames (importStr : List Char) : List String :=
  let cleaned :=
    jsTrim ((importStr.filter (fun c => c ≠ '(' ∧ c ≠ ')')).map
      (fun c => if c = '\n' then ' ' else c))
  if cleaned = ['*'] then ["*"]
  else
    (((splitOnChar ',' cleaned).map
      (fun name => String.mk (jsTrim (splitAsFirst (jsTrim name))))).filter
        (fun s => s ≠ ""))

/-- `PythonParser.extractSimpleImports`. -/
def extractSimpleImports (cleanedContent originalContent : String) :
    List ImportStatement :=
  (scanSimple cleanedContent.data).flatMap (fun m =>
    let importPart := jsTrim m.2
    let line := getLineNumber originalContent m.1
    ((splitOnChar ',' importPart).map (fun s => jsTrim s)).filterMap (fun mod =>
      let moduleName := String.mk (jsTrim (splitAsFirst mod))
      if moduleName ≠ "" ∧ ¬ moduleName.data.contains '(' then
        some (createImport moduleName .pythonImport line)
      else none))

/-- Index of the first occurrence of `c` in `l` at position ≥ `start`
(JS `indexOf(c, start)`), as an option. -/
def indexOfFrom (l : List Char) (c : Char) (start : Nat) : Option Nat :=
  match (l.drop start).findIdx? (fun d => d = c) with
  | none => none
  | some j => some (start + j)

/-- `PythonParser.extractFromImports`. -/
def extractFromImports (cleanedContent originalContent : String) :
    List ImportStatement :=
  let cs := cleanedContent.data
  (scanFrom cs).map (fun m =>
    let i := m.1
    let cap1 := m.2.1
    let cap2 := m.2.2.1
    let consumed := m.2.2.2
    let m0 := (cs.drop i).take consumed
    let modulePath := String.mk (jsTrim cap1)
    let importPart := jsTrim cap2
    let line := getLineNumber originalContent i
    let names :=
      if importPart.head? = some '(' then
        match m0.findIdx? (fun d => d = '(') with
        | some rel =>
          let startIdx := i + rel
          match indexOfFrom cs ')' startIdx with
          | some endIdx => parseImportNames ((cs.take endIdx).drop (startIdx + 1))
          | none => parseImportNames (importPart.drop 1)
        | none => parseImportNames (importPart.drop 1)
      else parseImportNames importPart
    let isRelative := strStartsWith modulePath "."
    { source := if modulePath = "" then "." else modulePath,
      type := .pythonFrom,
      names := some names,
      isRelative := isRelative,
      isExternal := !isRelative && !(modulePath.data.contains '.'),
      line := line })

/-- Scan for the first match of `/__all__\s*=\s*[\[(]([^\])]+)[\])]/`;
returns the capture. -/
def matchAllAt (l : List Char) : Option (List Char) :=
  if l.take 7 = ("__all__".data) then
    let l1 := (l.drop 7).dropWhile isJsSpace
    match l1.head? with
    | some '=' =>
      let l2 := (l1.drop 1).dropWhile isJsSpace
      match l2.head? with
      | some c =>
        if c = '[' ∨ c = '(' then
          let cap := (l2.drop 1).takeWhile (fun d => d ≠ ']' ∧ d ≠ ')')
          if cap.length = 0 then none
          else
            match ((l2.drop 1).drop cap.length).head? with
            | some d => if d = ']' ∨ d = ')' then some cap else none
            | none => none
        else none
      | none => none
    | some _ => none
    | none => none
  else none

def findAllCapture : List Char → Option (List Char)
  | [] => none
  | c :: rest =>
    match matchAllAt (c :: rest) with
    | some cap => some cap
    | none => findAllCapture rest

/-- The scan for `/['"]([^'"]+)['"]/g` over the `__all__` capture: find
non-overlapping quoted runs, then strip the quote characters. -/
def quotedRuns (fuel : Nat) (l : List Char) : List (List Char) :=
  match fuel, l with
  | 0, _ => []
  | _, [] => []
  | f + 1, c :: rest =>
    if c = '\'' ∨ c = '"' then
      let body := rest.takeWhile (fun d => d ≠ '\'' ∧ d ≠ '"')
      if body.length = 0 then quotedRuns f rest
      else
        match (rest.drop body.length).head? with
        | some _ => quotedRuns f (rest.drop (body.length + 1))
          |>.cons body
        | none => quotedRuns f rest
    else quotedRuns f rest

/-- `PythonParser.extractExports`. -/
def pyExtractExports (content : String) : List String :=
  match findAllCapture content.data with
  | none => []
  | some namesStr =>
    (quotedRuns (namesStr.length + 1) namesStr).map (fun r => String.mk r)

/-- `PythonParser.parse`. -/
def pythonParse (content filePath projectRoot : String) : ParsedFile :=
  let result := createEmptyResult filePath projectRoot "python"
  let size := content.utf8ByteSize
  let cleanedContent := removeCommentsAndStrings content
  let imports :=
    extractSimpleImports cleanedContent content ++
      extractFromImports cleanedContent content
  let exports := pyExtractExports content
  { result with size := size, imports := imports, exports := exports }

/-! ### Analysis result (`src/analyzers/index.ts`) and health dashboard
(`src/dashboard/index.ts`, extended scoring form) -/

structure ArchitectureMetrics where
  averageCoupling : ℚ
  highCouplingModules : List String
  circularDependencyCount : Nat
  orphanModules : List String
  entryPointsCount : Nat
deriving DecidableEq, Repr

/-- `ArchitectureAnalysis`; the wall-clock `timestamp` is irrelevant to
every claim and is modelled as `Unit`. -/
structure ArchitectureAnalysis where
  projectRoot : String
  graph : DependencyGraph
  layers : List ArchitectureLayer
  timestamp : Unit
  filesAnalyzed : Nat
  totalDependencies : Nat
  metrics : ArchitectureMetrics
deriving DecidableEq, Repr

/-- `createEmptyAnalysis` from `src/analyzers/index.ts`. -/
def createEmptyAnalysis (projectRoot : String) : ArchitectureAnalysis :=
  { projectRoot := projectRoot,
    graph :=
      { nodes := [], edges := [],
        externalDependencies := [], circularDependencies := [] },
    layers := [],
    timestamp := (),
    filesAnalyzed := 0,
    totalDependencies := 0,
    metrics :=
      { averageCoupling := 0,
        highCouplingModules := [],
        circularDependencyCount := 0,
        orphanModules := [],
        entryPointsCount := 0 } }

/-- `Math.round` on rationals (half rounds toward positive infinity):
`⌊q + 1/2⌋`, computed as a floor division so it reduces in the kernel. -/
def jsRound (q : ℚ) : ℤ :=
  Int.fdiv (2 * q.num + (q.den : ℤ)) (2 * (q.den : ℤ))

/-- Multiplication of a rational by 100, written on the numerator so it
reduces in the kernel (`q * 100`). -/
def qMul100 (q : ℚ) : ℚ :=
  mkRat (q.num * 100) q.den

structure HealthMetrics where
  score : ℤ
  coupling : ℚ
  circularDeps : Nat
  orphans : Nat
  layerViolations : Nat
  maxInDegree : Nat
  maxOutDegree : Nat
  afferentCoupling : Nat
  efferentCoupling : Nat
  instability : ℚ
  hubModules : Nat
deriving DecidableEq, Repr

/-- The `Omit<HealthMetrics, 'score'>` argument of `calculateOverallScore`. -/
structure HealthMetricsInput where
  coupling : ℚ
  circularDeps : Nat
  orphans : Nat
  layerViolations : Nat
  maxInDegree : Nat
  maxOutDegree : Nat
  afferentCoupling : Nat
  efferentCoupling : Nat
  instability : ℚ
  hubModules : Nat
deriving DecidableEq, Repr

inductive HealthStatus
  | healthy
  | warning
  | critical
deriving DecidableEq, Repr

structure HealthReport where
  metrics : HealthMetrics
  grade : String
  status : HealthStatus
  recommendations : List String
  generatedAt : Unit
deriving DecidableEq, Repr

/-- `countLayerViolations` (extended dashboard form). -/
def countLayerViolations (analysis : ArchitectureAnalysis) : Nat :=
  let layerOrder :=
    analysis.layers.enum.foldl
      (fun m p => p.2.modules.foldl (fun m2 md => mset m2 md p.1) m) []
  analysis.graph.edges.foldl
    (fun acc e =>
      match mget layerOrder e.«from», mget layerOrder e.«to» with
      | some fl, some tl => if fl > tl then acc + 1 else acc
      | _, _ => acc)
    0

/-- `calculateOverallScore` (extended form).  The running score stays an
integer, so the final `Math.round` is the identity. -/
def calculateOverallScore (metrics : HealthMetricsInput) (totalModules : Nat) : ℤ :=
  let score : ℤ := 100
  let score := score - min 30 ((metrics.circularDeps : ℤ) * 3)
  let score := if metrics.coupling > 5 then score - 5 else score
  let score := if metrics.coupling > 10 then score - 10 else score
  let score := if metrics.coupling > 20 then score - 5 else score
  let orphanPercentage : ℚ :=
    if totalModules > 0 then qMul100 (mkRat metrics.orphans totalModules) else 0
  let score :=
    if orphanPercentage > 50 then score - 15
    else if orphanPercentage > 30 then score - 10
    else if orphanPercentage > 10 then score - 5
    else score
  let score := score - min 15 (metrics.layerViolations : ℤ)
  let score := if metrics.maxInDegree > 50 then score - 5 else score
  let score := if metrics.maxOutDegree > 50 then score - 5 else score
  let score :=
    if metrics.hubModules > 3 then score - 5
    else if metrics.hubModules > 0 then score - 2
    else score
  let score :=
    if metrics.instability > mkRat 9 10 ∨ metrics.instability < mkRat 1 10 then
      score - 3
    else score
  max 0 (min 100 score)

def scoreToGrade (score : ℤ) : String :=
  if score ≥ 90 then "A"
  else if score ≥ 80 then "B"
  else if score ≥ 70 then "C"
  else if score ≥ 60 then "D"
  else "F"

def getStatus (score : ℤ) : HealthStatus :=
  if score ≥ 70 then .healthy
  else if score ≥ 50 then .warning
  else .critical

/-- `calculateHealthMetrics` (extended form). -/
def calculateHealthMetrics (analysis : ArchitectureAnalysis) : HealthMetrics :=
  let vals := analysis.graph.nodes.map (fun p => p.2)
  let totalOutDegree : Nat := (vals.map (fun n => n.outDegree)).sum
  let totalInDegree : Nat := (vals.map (fun n => n.inDegree)).sum
  let maxInDegree := vals.foldl (fun acc n => Nat.max acc n.inDegree) 0
  let maxOutDegree := vals.foldl (fun acc n => Nat.max acc n.outDegree) 0
  let orphans := (vals.filter (fun n => n.inDegree = 0 ∧ n.outDegree = 0)).length
  let hubModules := (vals.filter (fun n => n.inDegree ≥ 5 ∧ n.outDegree ≥ 5)).length
  let size := analysis.graph.nodes.length
  let coupling : ℚ := if size > 0 then mkRat totalOutDegree size else 0
  let circularDeps := analysis.graph.circularDependencies.length
  let layerViolations := countLayerViolations analysis
  let totalCoupling := totalInDegree + totalOutDegree
  let instability : ℚ :=
    if totalCoupling > 0 then
      mkRat (jsRound (qMul100 (mkRat totalOutDegree totalCoupling))) 100
    else 0
  let score := calculateOverallScore
    { coupling := coupling, circularDeps := circularDeps, orphans := orphans,
      layerViolations := layerViolations, maxInDegree := maxInDegree,
      maxOutDegree := maxOutDegree, afferentCoupling := totalInDegree,
      efferentCoupling := totalOutDegree, instability := instability,
      hubModules := hubModules } size
  { score := score,
    coupling := mkRat (jsRound (qMul100 coupling)) 100,
    circularDeps := circularDeps,
    orphans := orphans,
    layerViolations := layerViolations,
    maxInDegree := maxInDegree,
    maxOutDegree := maxOutDegree,
    afferentCoupling := totalInDegree,
    efferentCoupling := totalOutDegree,
    instability := instability,
    hubModules := hubModules }

/-- `generateRecommendations` (extended form).  Numeric template
interpolation is modelled with `toString`; no claim depends on the exact
message text. -/
def generateRecommendations (metrics : HealthMetrics) : List String :=
  let recs : List String := []
  let recs := if metrics.circularDeps > 0 then
    recs ++ ["Fix " ++ toString metrics.circularDeps ++
      " circular dependency chain(s) - highest priority"] else recs
  let recs := if metrics.coupling > 10 then
    recs ++ ["High average coupling - consider breaking down large modules"] else recs
  let recs := if metrics.orphans > 0 then
    recs ++ [toString metrics.orphans ++
      " orphan module(s) - consider removing or integrating"] else recs
  let recs := if metrics.layerViolations > 0 then
    recs ++ [toString metrics.layerViolations ++
      " layer violation(s) - fix dependency direction"] else recs
  let recs := if metrics.maxInDegree > 20 then
    recs ++ ["High afferent coupling (Ca=" ++ toString metrics.maxInDegree ++
      ") - some modules are depended on too much"] else recs
  let recs := if metrics.maxOutDegree > 20 then
    recs ++ ["High efferent coupling (Ce=" ++ toString metrics.maxOutDegree ++
      ") - some modules depend on too many others"] else recs
  let recs := if metrics.hubModules > 0 then
    recs ++ [toString metrics.hubModules ++
      " hub module(s) with high coupling in both directions"] else recs
  let recs :=
    if metrics.instability > mkRat 8 10 then
      recs ++ ["High instability (I=" ++ toString metrics.instability ++
        ") - codebase is very volatile"]
    else if metrics.instability < mkRat 2 10 then
      recs ++ ["Low instability (I=" ++ toString metrics.instability ++
        ") - codebase may be too rigid"]
    else recs
  if recs.length = 0 then
    ["Architecture looks healthy! Well-balanced coupling and dependencies."]
  else recs

/-- `generateHealthReport` (extended form). -/
def generateHealthReport (analysis : ArchitectureAnalysis) : HealthReport :=
  let metrics := calculateHealthMetrics analysis
  { metrics := metrics,
    grade := scoreToGrade metrics.score,
    status := getStatus metrics.score,
    recommendations := generateRecommendations metrics,
    generatedAt := () }

/-! ### Concrete fixtures used by witnesses and counterexamples -/

/-- `a.ts` importing itself (`import './a'` is legal TypeScript). -/
def fileSelf : ParsedFile :=
  { filePath := "/r/a.ts", relativePath := "a.ts", language := "typescript",
    imports := [{ source := "./a", type := .es6Named, isRelative := true,
                  isExternal := false, line := 1 }],
    exports := [], size := 10, errors := [] }

def fileA : ParsedFile :=
  { filePath := "/r/a.ts", relativePath := "a.ts", language := "typescript",
    imports := [], exports := [], size := 5, errors := [] }

def fileB : ParsedFile :=
  { filePath := "/r/b.ts", relativePath := "b.ts", language := "typescript",
    imports := [], exports := [], size := 5, errors := [] }

/-- `c.ts` importing `./d` twice (named and dynamic) plus an external. -/
def fileC : ParsedFile :=
  { filePath := "/r/c.ts", relativePath := "c.ts", language := "typescript",
    imports :=
      [{ source := "./d", type := .es6Default, isRelative := true,
         isExternal := false, line := 1 },
       { source := "lodash", type := .es6Named, isRelative := false,
         isExternal := true, line := 2 },
       { source := "./d", type := .dynamicImport, isRelative := true,
         isExternal := false, line := 3 }],
    exports := [], size := 10, errors := [] }

def fileD : ParsedFile :=
  { filePath := "/r/d.ts", relativePath := "d.ts", language := "typescript",
    imports := [], exports := [], size := 5, errors := [] }

/-- The node `buildDependencyGraph [fileC, fileD]` produces for `c.ts`. -/
def nodeC : DependencyNode :=
  { path := "c.ts", name := "c", inDegree := 0, outDegree := 2,
    coupling := 1, isEntryPoint := false, language := "typescript",
    layer := none }

/-- The collapsed edge `c.ts → d.ts` of weight 2. -/
def edgeCD : DependencyEdge :=
  { «from» := "c.ts", «to» := "d.ts", weight := 2,
    importTypes := [.es6Default, .dynamicImport] }

end ArchPulse

namespace ArchPulse

/-! ## Helper lemmas about the ordered-map model -/

/-! ### Derived definitions and fixtures used by the verification
lemmas and claim theorems below -/

/-- The elements of a list whose key has not been seen before: the first
occurrence of each key, in input order.  This is the iteration order of a
JavaScript `Map` built by repeated `set`.  `seen` carries the keys already
present. -/
def firstOccurGo {β : Type} (key : β → String) (seen : List String) :
    List β → List β
  | [] => []
  | x :: xs =>
    if seen.contains (key x) then firstOccurGo key seen xs
    else x :: firstOccurGo key (key x :: seen) xs

def firstOccurrences (l : List String) : List String :=
  firstOccurGo id [] l

/-- First occurrence of each `source|target` edge key. -/
def pairKey (p : String × String) : String :=
  p.1 ++ "|" ++ p.2

def firstOccurPairs (l : List (String × String)) : List (String × String) :=
  firstOccurGo pairKey [] l

/-- The imports of all files, tagged with their file, in processing
order. -/
def flatImports (files : List ParsedFile) : List (ParsedFile × ImportStatement) :=
  files.flatMap (fun f => f.imports.map (fun imp => (f, imp)))

/-- The `(source, target)` pairs of the non-external imports that
resolve, in processing order. -/
def resolvedOf (projectRoot : String) (fpm : OMap String)
    (l : List (ParsedFile × ImportStatement)) : List (String × String) :=
  l.filterMap (fun p =>
    if p.2.isExternal then none
    else (resolveImport p.2.source p.1.filePath projectRoot fpm).map
      (fun t => (p.1.relativePath, t)))

def resolvedPairs (files : List ParsedFile) (projectRoot : String) :
    List (String × String) :=
  resolvedOf projectRoot (mkFilePathMap files) (flatImports files)

/-- Package names of the external imports, in processing order. -/
def externalsOf (l : List (ParsedFile × ImportStatement)) : List String :=
  l.filterMap (fun p =>
    if p.2.isExternal then some (getPackageName p.2.source) else none)

/-- The edge-map component of one `processImport` step. -/
def edgeMapStep (projectRoot : String) (fpm : OMap String)
    (em : OMap DependencyEdge) (p : ParsedFile × ImportStatement) :
    OMap DependencyEdge :=
  (processImport projectRoot fpm p.1 (em, []) p.2).1

/-- The external-set component of one `processImport` step. -/
def extStep (ext : List String) (p : ParsedFile × ImportStatement) :
    List String :=
  if p.2.isExternal then addSet ext (getPackageName p.2.source) else ext

/-- Every entry of the edge map is keyed by `from|to` of its value. -/
def EdgeKeyInv (em : OMap DependencyEdge) : Prop :=
  ∀ q ∈ em, q.1 = q.2.«from» ++ "|" ++ q.2.«to»

def valuePairs (em : OMap DependencyEdge) : List (String × String) :=
  em.map (fun q => (q.2.«from», q.2.«to»))

/-- Sum of the weights of the edges leaving `p`. -/
def sumWFrom (edges : List DependencyEdge) (p : String) : Nat :=
  ((edges.filter (fun e => e.«from» = p)).map (fun e => e.weight)).sum

/-- Sum of the weights of the edges entering `p`. -/
def sumWTo (edges : List DependencyEdge) (p : String) : Nat :=
  ((edges.filter (fun e => e.«to» = p)).map (fun e => e.weight)).sum

/-- Adjacency relation read off the DFS adjacency map. -/
def adjRel (adj : OMap (List String)) (a b : String) : Prop :=
  b ∈ mgetD adj a []

/-- What `detectCircularDependencies` guarantees for each recorded cycle:
at least two entries, first entry equals last, consecutive entries
adjacent. -/
def CycleOk (adj : OMap (List String)) (c : List String) : Prop :=
  2 ≤ c.length ∧ c.head? = c.getLast? ∧ List.Chain' (adjRel adj) c

/-- The DFS loop invariant: the path is visited, the recursion stack is
exactly the path as a set, the path is an adjacency chain, and every
recorded cycle is sound. -/
def StInv (adj : OMap (List String)) (st : DfsState) : Prop :=
  (∀ x ∈ st.path, x ∈ st.visited) ∧
  (∀ x, x ∈ st.recStack ↔ x ∈ st.path) ∧
  List.Chain' (adjRel adj) st.path ∧
  (∀ c ∈ st.cycles, CycleOk adj c)

/-- Specification of one `dfs` call (at any fuel). -/
def DfsCallOk (adj : OMap (List String))
    (call : String → DfsState → DfsState) : Prop :=
  ∀ node st, StInv adj st → node ∉ st.visited →
    (st.path = [] ∨ ∃ last, st.path.getLast? = some last ∧ adjRel adj last node) →
    StInv adj (call node st) ∧ (call node st).path = st.path ∧
      (call node st).recStack = st.recStack ∧
      (∀ x ∈ st.visited, x ∈ (call node st).visited)

/-- Rendering of regex tokens back to source characters, mirroring the
three replaces. -/
def renderToks : List RTok → List Char
  | [] => []
  | .rlit c :: ts => (if c = '.' then ['\\', '.'] else [c]) ++ renderToks ts
  | .rany :: ts => '.' :: renderToks ts
  | .rnonslash :: ts => ['[', '^', '/', ']', '*'] ++ renderToks ts

def rlitOk : RTok → Bool
  | .rlit c => !((['\\', '[', '*', '(', ')', '|', '+', '?', '$', '^'] : List Char).contains c)
  | _ => true

def eraseLevel (l : ArchitectureLayer) : ArchitectureLayer :=
  { l with level := 0 }

def keySum : List (String × Nat) → String → Nat
  | [], _ => 0
  | q :: rest, k => (if q.1 = k then q.2 else 0) + keySum rest k

def totalInto : OMap (OMap Nat) → String → Nat
  | [], _ => 0
  | p :: rest, tl => mgetD p.2 tl 0 + totalInto rest tl

def econtrib (graph : DependencyGraph) (K : List String) (tl : String)
    (e : DependencyEdge) : Nat :=
  match mget graph.nodes e.«from», mget graph.nodes e.«to» with
  | some sn, some tn =>
    match sn.layer, tn.layer with
    | some fl, some tl2 =>
      if fl = tl2 then 0
      else if K.contains fl then (if tl2 = tl then e.weight else 0) else 0
    | _, _ => 0
  | _, _ => 0

def sumContrib (graph : DependencyGraph) (K : List String) (tl : String) :
    List DependencyEdge → Nat
  | [] => 0
  | e :: rest => econtrib graph K tl e + sumContrib graph K tl rest

def specContrib (graph : DependencyGraph) (tl : String) (e : DependencyEdge) : Nat :=
  match mget graph.nodes e.«from», mget graph.nodes e.«to» with
  | some sn, some tn =>
    match sn.layer, tn.layer with
    | some fl, some tl2 => if fl ≠ tl2 ∧ tl2 = tl then e.weight else 0
    | _, _ => 0
  | _, _ => 0

def specSum (graph : DependencyGraph) (tl : String) : List DependencyEdge → Nat
  | [] => 0
  | e :: rest => specContrib graph tl e + specSum graph tl rest

def layerApi : ArchitectureLayer :=
  { id := "api", name := "Api", modules := ["a.ts"], color := "#1abc9c", level := 1 }

def layerDb : ArchitectureLayer :=
  { id := "db", name := "Database", modules := ["b.ts"], color := "#9b59b6", level := 3 }

def nodeLA : DependencyNode :=
  { path := "a.ts", name := "a", inDegree := 0, outDegree := 2, coupling := 1,
    isEntryPoint := false, language := "typescript", layer := some "api" }

def nodeLB : DependencyNode :=
  { path := "b.ts", name := "b", inDegree := 2, outDegree := 0, coupling := 1,
    isEntryPoint := false, language := "typescript", layer := some "db" }

def layerGraph : DependencyGraph :=
  { nodes := [("a.ts", nodeLA), ("b.ts", nodeLB)],
    edges := [{ «from» := "a.ts", «to» := "b.ts", weight := 2, importTypes := [.es6Default] }],
    externalDependencies := [],
    circularDependencies := [] }

theorem mget_mset {α : Type} (m : OMap α) (k : String) (v : α) (p : String) :
    mget (mset m k v) p = if k = p then some v else mget m p := by
  induction m with
  | nil =>
    by_cases h : k = p <;> simp [mset, mget, h]
  | cons hd tl ih =>
    by_cases h1 : hd.1 = k
    · by_cases h2 : k = p <;> simp [mset, mget, h1, h2] <;> simp [h1 ▸ h2]
    · by_cases h2 : hd.1 = p
      · have hkp : ¬ k = p := fun e => h1 (e ▸ h2)
        have hpk : ¬ p = k := fun e => hkp e.symm
        simp [mset, mget, h1, h2, hkp, hpk]
      · simp [mset, mget, h1, h2, ih]

theorem keys_mset {α : Type} (m : OMap α) (k : String) (v : α) :
    (mset m k v).map Prod.fst =
      if (m.map Prod.fst).contains k then m.map Prod.fst
      else m.map Prod.fst ++ [k] := by
  induction m with
  | nil => simp [mset]
  | cons hd tl ih =>
    by_cases h : hd.1 = k
    · simp [mset, h]
    · have hne : ¬ (k == hd.1) = true := by
        simp only [beq_iff_eq]
        exact fun e => h e.symm
      simp only [mset, if_neg h, List.map_cons, List.contains_cons, hne, Bool.false_or, ih]
      split <;> simp

theorem mget_mmodify {α : Type} (m : OMap α) (k : String) (f : α → α) (p : String) :
    mget (mmodify m k f) p =
      if k = p then (mget m p).map f else mget m p := by
  induction m with
  | nil => by_cases h : k = p <;> simp [mmodify, mget, h]
  | cons hd tl ih =>
    by_cases h1 : hd.1 = k
    · by_cases h2 : k = p <;> simp [mmodify, mget, h1, h2] <;> simp [h1 ▸ h2]
    · by_cases h2 : hd.1 = p
      · have hkp : ¬ k = p := fun e => h1 (e ▸ h2)
        have hpk : ¬ p = k := fun e => hkp e.symm
        simp [mmodify, mget, h1, h2, hkp, hpk]
      · simp [mmodify, mget, h1, h2, ih]

theorem keys_mmodify {α : Type} (m : OMap α) (k : String) (f : α → α) :
    (mmodify m k f).map Prod.fst = m.map Prod.fst := by
  induction m with
  | nil => simp [mmodify]
  | cons hd tl ih =>
    by_cases h : hd.1 = k <;> simp [mmodify, h, ih]

theorem mget_eq_some_of_mem {α : Type} {m : OMap α} {p : String} {v : α}
    (hnd : (m.map Prod.fst).Nodup) (hm : (p, v) ∈ m) : mget m p = some v := by
  induction m with
  | nil => simp at hm
  | cons hd tl ih =>
    rcases List.mem_cons.mp hm with h | h
    · simp [← h, mget]
    · have hp : p ∈ tl.map Prod.fst := List.mem_map.mpr ⟨(p, v), h, rfl⟩
      have hhd : hd.1 ≠ p := by
        intro e
        exact (List.nodup_cons.mp hnd).1 (e ▸ hp)
      simp only [mget, if_neg hhd]
      exact ih (List.nodup_cons.mp hnd).2 h

theorem mem_of_mget_eq_some {α : Type} {m : OMap α} {p : String} {v : α}
    (h : mget m p = some v) : (p, v) ∈ m := by
  induction m with
  | nil => simp [mget] at h
  | cons hd tl ih =>
    rcases hd with ⟨a, b⟩
    by_cases h1 : a = p
    · subst h1
      simp [mget] at h
      subst h
      exact List.mem_cons_self _ _
    · simp only [mget, h1, if_neg, if_false] at h
      exact List.mem_cons_of_mem _ (ih h)

/-! ## First-occurrence order -/

theorem firstOccurGo_cons {β : Type} (key : β → String) (seen : List String)
    (x : β) (xs : List β) :
    firstOccurGo key seen (x :: xs) =
      if seen.contains (key x) then firstOccurGo key seen xs
      else x :: firstOccurGo key (key x :: seen) xs :=
  rfl

theorem contains_append_singleton (l : List String) (x a : String) :
    (l ++ [x]).contains a = (x :: l).contains a := by
  simp only [List.contains_cons]
  induction l with
  | nil =>
    by_cases h : a = x <;> simp [h]
  | cons y ys ih =>
    simp only [List.cons_append, List.contains_cons, ih]
    exact Bool.or_left_comm _ _ _

theorem firstOccurGo_congr {β : Type} (key : β → String) (l : List β) :
    ∀ s₁ s₂ : List String, (∀ a, s₁.contains a = s₂.contains a) →
      firstOccurGo key s₁ l = firstOccurGo key s₂ l := by
  induction l with
  | nil => intro _ _ _; rfl
  | cons x xs ih =>
    intro s₁ s₂ h
    by_cases hx : s₁.contains (key x) = true
    · simp only [firstOccurGo, hx, h (key x) ▸ hx, if_pos]
      exact ih s₁ s₂ h
    · have hx₂ : ¬ s₂.contains (key x) = true := by rw [← h (key x)]; exact hx
      simp only [firstOccurGo, if_neg hx, if_neg hx₂]
      refine congrArg _ (ih _ _ ?_)
      intro a
      simp only [List.contains_cons, h a]

theorem mem_of_mem_firstOccurGo {β : Type} {key : β → String} (x : β) :
    ∀ (l : List β) (seen : List String),
      x ∈ firstOccurGo key seen l → x ∈ l := by
  intro l
  induction l with
  | nil => intro seen h; simp [firstOccurGo] at h
  | cons y ys ih =>
    intro seen h
    by_cases hy : seen.contains (key y) = true
    · simp only [firstOccurGo, if_pos hy] at h
      exact List.mem_cons_of_mem _ (ih _ h)
    · simp only [firstOccurGo, if_neg hy] at h
      rcases List.mem_cons.mp h with h | h
      · exact h ▸ List.mem_cons_self _ _
      · exact List.mem_cons_of_mem _ (ih _ h)

theorem key_mem_firstOccurGo {β : Type} {key : β → String} (x : β) :
    ∀ (l : List β) (seen : List String), x ∈ l →
      (∃ y ∈ firstOccurGo key seen l, key y = key x) ∨
        seen.contains (key x) = true := by
  intro l
  induction l with
  | nil => intro seen h; simp at h
  | cons y ys ih =>
    intro seen h
    by_cases hy : seen.contains (key y) = true
    · simp only [firstOccurGo, if_pos hy]
      rcases List.mem_cons.mp h with h | h
      · right; rw [h]; exact hy
      · exact ih _ h
    · simp only [firstOccurGo, if_neg hy]
      rcases List.mem_cons.mp h with h | h
      · left; exact ⟨y, List.mem_cons_self _ _, by rw [h]⟩
      · rcases ih (key y :: seen) h with ⟨z, hz, hkz⟩ | hc
        · exact Or.inl ⟨z, List.mem_cons_of_mem _ hz, hkz⟩
        · rw [List.contains_cons] at hc
          rcases Bool.or_eq_true_iff.mp hc with hc | hc
          · left
            refine ⟨y, List.mem_cons_self _ _, ?_⟩
            exact (beq_iff_eq.mp hc).symm
          · right; exact hc

theorem firstOccurGo_nodupKeys {β : Type} (key : β → String) (l : List β) :
    ∀ seen : List String, (∀ a ∈ seen, a ∉ (firstOccurGo key seen l).map key) ∧
      ((firstOccurGo key seen l).map key).Nodup := by
  induction l with
  | nil => intro seen; simp [firstOccurGo]
  | cons y ys ih =>
    intro seen
    by_cases hy : seen.contains (key y) = true
    · simp only [firstOccurGo, if_pos hy]
      exact ih seen
    · simp only [firstOccurGo, if_neg hy]
      constructor
      · intro a ha
        have hyne : a ≠ key y := by
          intro e
          exact hy (by simpa using (e ▸ ha))
        have := (ih (key y :: seen)).1 a (List.mem_cons_of_mem _ ha)
        simp [hyne, this]
      · refine List.nodup_cons.mpr ⟨?_, (ih (key y :: seen)).2⟩
        exact (ih (key y :: seen)).1 (key y) (List.mem_cons_self _ _)

theorem buildNodes_keys_aux (files : List ParsedFile) :
    ∀ m : OMap DependencyNode,
      ((files.foldl (fun m f => mset m f.relativePath (mkNode f)) m).map Prod.fst)
        = m.map Prod.fst ++
            firstOccurGo id (m.map Prod.fst) (files.map (fun f => f.relativePath)) := by
  induction files with
  | nil => intro m; simp [firstOccurGo]
  | cons f fs ih =>
    intro m
    simp only [List.foldl_cons, List.map_cons]
    rw [ih (mset m f.relativePath (mkNode f)), keys_mset, firstOccurGo_cons]
    by_cases h : (m.map Prod.fst).contains f.relativePath = true
    · rw [if_pos h, if_pos (by exact h)]
    · rw [if_neg h, if_neg (by exact h)]
      have hc : firstOccurGo id (List.map Prod.fst m ++ [f.relativePath])
            (fs.map (fun f => f.relativePath))
          = firstOccurGo id (id f.relativePath :: List.map Prod.fst m)
            (fs.map (fun f => f.relativePath)) := by
        refine firstOccurGo_congr _ _ _ _ ?_
        intro a
        exact contains_append_singleton _ _ _
      rw [hc, List.append_assoc, List.singleton_append]

theorem buildNodes_keys (files : List ParsedFile) :
    (buildNodes files).map Prod.fst
      = firstOccurrences (files.map (fun f => f.relativePath)) := by
  simpa [buildNodes, firstOccurrences] using buildNodes_keys_aux files []

theorem buildNodes_keys_nodup (files : List ParsedFile) :
    ((buildNodes files).map Prod.fst).Nodup := by
  rw [buildNodes_keys]
  have := (firstOccurGo_nodupKeys id (files.map (fun f => f.relativePath)) []).2
  simpa [firstOccurrences] using this

/-! ## Decomposition of the edge-building pass -/

theorem processImport_split (projectRoot : String) (fpm : OMap String)
    (f : ParsedFile) (imp : ImportStatement) (em : OMap DependencyEdge)
    (ext : List String) :
    processImport projectRoot fpm f (em, ext) imp =
      (edgeMapStep projectRoot fpm em (f, imp), extStep ext (f, imp)) := by
  by_cases h : imp.isExternal = true
  · simp [processImport, edgeMapStep, extStep, h]
  · simp only [Bool.not_eq_true] at h
    cases hr : resolveImport imp.source f.filePath projectRoot fpm with
    | none => simp [processImport, edgeMapStep, extStep, h, hr]
    | some t =>
      cases hget : mget em (f.relativePath ++ "|" ++ t) with
      | none => simp [processImport, edgeMapStep, extStep, h, hr, hget]
      | some e => simp [processImport, edgeMapStep, extStep, h, hr, hget]

theorem foldl_processImport_split (projectRoot : String) (fpm : OMap String) :
    ∀ (L : List (ParsedFile × ImportStatement)) (em : OMap DependencyEdge)
      (ext : List String),
      L.foldl (fun st p => processImport projectRoot fpm p.1 st p.2) (em, ext)
        = (L.foldl (edgeMapStep projectRoot fpm) em, L.foldl extStep ext) := by
  intro L
  induction L with
  | nil => intro em ext; rfl
  | cons p ps ih =>
    intro em ext
    simp only [List.foldl_cons, processImport_split]
    exact ih _ _

theorem buildEdges_flat (files : List ParsedFile) (projectRoot : String)
    (fpm : OMap String) :
    buildEdges files projectRoot fpm =
      ((flatImports files).foldl (edgeMapStep projectRoot fpm) [],
       (flatImports files).foldl extStep []) := by
  have main : ∀ (fs : List ParsedFile) (st : OMap DependencyEdge × List String),
      fs.foldl (fun st f => f.imports.foldl (processImport projectRoot fpm f) st) st
        = (flatImports fs).foldl
            (fun st p => processImport projectRoot fpm p.1 st p.2) st := by
    intro fs
    induction fs with
    | nil => intro st; rfl
    | cons f fs ih =>
      intro st
      simp only [List.foldl_cons, flatImports, List.flatMap_cons, List.foldl_append,
        List.foldl_map]
      rw [ih]
      rfl
  rw [buildEdges, main, foldl_processImport_split]

/-! ## The edge list holds each `source|target` key once, in
first-creation order -/

theorem contains_of_mget_eq_some {α : Type} {em : OMap α} {k : String} {v : α}
    (h : mget em k = some v) : (em.map Prod.fst).contains k = true := by
  have hmem := mem_of_mget_eq_some h
  have hk : k ∈ em.map Prod.fst := List.mem_map.mpr ⟨(k, v), hmem, rfl⟩
  simpa using hk

theorem mget_isSome_of_contains {α : Type} {em : OMap α} {k : String}
    (h : (em.map Prod.fst).contains k = true) : ∃ v, mget em k = some v := by
  induction em with
  | nil => simp at h
  | cons hd tl ih =>
    by_cases h1 : hd.1 = k
    · exact ⟨hd.2, by simp [mget, h1]⟩
    · simp only [List.map_cons, List.contains_cons, Bool.or_eq_true, beq_iff_eq] at h
      rcases h with h | h
      · exact absurd h.symm h1
      · simpa [mget, h1] using ih h

theorem mem_mset {α : Type} {em : OMap α} {k : String} {v : α} {q : String × α}
    (h : q ∈ mset em k v) : q ∈ em ∨ q = (k, v) := by
  induction em with
  | nil => simpa [mset] using h
  | cons hd tl ih =>
    by_cases h1 : hd.1 = k
    · rcases List.mem_cons.mp (by simpa [mset, h1] using h) with h | h
      · right
        rw [h, ← h1]
      · left; exact List.mem_cons_of_mem _ h
    · rcases List.mem_cons.mp (by simpa [mset, h1] using h) with h | h
      · left; exact h ▸ List.mem_cons_self _ _
      · rcases ih h with h | h
        · left; exact List.mem_cons_of_mem _ h
        · right; exact h

theorem mset_eq_append_of_mget_none {α : Type} {em : OMap α} {k : String}
    (v : α) (h : mget em k = none) : mset em k v = em ++ [(k, v)] := by
  induction em with
  | nil => rfl
  | cons hd tl ih =>
    by_cases h1 : hd.1 = k
    · simp [mget, h1] at h
    · simp only [mget, if_neg h1] at h
      simp [mset, if_neg h1, ih h]

theorem map_mset_of_value_agree {α β : Type} {em : OMap α} {k : String}
    {v w : α} (g : α → β) (hget : mget em k = some w) (hagree : g v = g w) :
    (mset em k v).map (fun q => g q.2) = em.map (fun q => g q.2) := by
  induction em with
  | nil => simp [mget] at hget
  | cons hd tl ih =>
    by_cases h1 : hd.1 = k
    · simp only [mget, if_pos h1, Option.some.injEq] at hget
      simp [mset, if_pos h1, hget ▸ hagree]
    · simp only [mget, if_neg h1] at hget
      simp [mset, if_neg h1, ih hget]

theorem edgeMapFold_pairs (projectRoot : String) (fpm : OMap String) :
    ∀ (L : List (ParsedFile × ImportStatement)) (em : OMap DependencyEdge),
      EdgeKeyInv em →
      EdgeKeyInv (L.foldl (edgeMapStep projectRoot fpm) em) ∧
      valuePairs (L.foldl (edgeMapStep projectRoot fpm) em)
        = valuePairs em ++
            firstOccurGo pairKey (em.map Prod.fst) (resolvedOf projectRoot fpm L) := by
  intro L
  induction L with
  | nil =>
    intro em hinv
    exact ⟨hinv, by simp [firstOccurGo, resolvedOf]⟩
  | cons p ps ih =>
    intro em hinv
    rcases p with ⟨f, imp⟩
    by_cases hext : imp.isExternal = true
    · have hstep : edgeMapStep projectRoot fpm em (f, imp) = em := by
        simp [edgeMapStep, processImport, hext]
      have hres : resolvedOf projectRoot fpm ((f, imp) :: ps)
          = resolvedOf projectRoot fpm ps := by
        simp [resolvedOf, hext]
      simpa [hstep, hres] using ih em hinv
    · simp only [Bool.not_eq_true] at hext
      cases hr : resolveImport imp.source f.filePath projectRoot fpm with
      | none =>
        have hstep : edgeMapStep projectRoot fpm em (f, imp) = em := by
          simp [edgeMapStep, processImport, hext, hr]
        have hres : resolvedOf projectRoot fpm ((f, imp) :: ps)
            = resolvedOf projectRoot fpm ps := by
          simp [resolvedOf, hext, hr]
        simpa [hstep, hres] using ih em hinv
      | some t =>
        have hres : resolvedOf projectRoot fpm ((f, imp) :: ps)
            = (f.relativePath, t) :: resolvedOf projectRoot fpm ps := by
          simp [resolvedOf, hext, hr]
        cases hget : mget em (f.relativePath ++ "|" ++ t) with
        | some edge =>
          have hkey := hinv _ (mem_of_mget_eq_some hget)
          set edge2 : DependencyEdge :=
            { edge with
              weight := edge.weight + 1,
              importTypes :=
                if edge.importTypes.contains imp.type then edge.importTypes
                else edge.importTypes ++ [imp.type] } with hedge2
          have hstep : edgeMapStep projectRoot fpm em (f, imp)
              = mset em (f.relativePath ++ "|" ++ t) edge2 := by
            simp [edgeMapStep, processImport, hext, hr, hget, hedge2]
          have hkeys : (mset em (f.relativePath ++ "|" ++ t) edge2).map Prod.fst
              = em.map Prod.fst := by
            rw [keys_mset, if_pos (contains_of_mget_eq_some hget)]
          have hinv2 : EdgeKeyInv (mset em (f.relativePath ++ "|" ++ t) edge2) := by
            intro q hq
            rcases mem_mset hq with hq | hq
            · exact hinv q hq
            · rw [hq]
              simpa [hedge2] using hkey
          have hvals : valuePairs (mset em (f.relativePath ++ "|" ++ t) edge2)
              = valuePairs em := by
            simp only [valuePairs]
            exact map_mset_of_value_agree (v := edge2) (fun e => (e.«from», e.«to»))
              hget (by simp [hedge2])
          have hih := ih (mset em (f.relativePath ++ "|" ++ t) edge2) hinv2
          rw [List.foldl_cons, hstep]
          refine ⟨hih.1, ?_⟩
          rw [hih.2]
      
          rw [hvals, hkeys, hres, firstOccurGo_cons]
          rw [if_pos (by simpa [pairKey] using contains_of_mget_eq_some hget)]
        | none =>
          set newEdge : DependencyEdge :=
            { «from» := f.relativePath, «to» := t, weight := 1,
              importTypes := [imp.type] } with hnew
          have hstep : edgeMapStep projectRoot fpm em (f, imp)
              = mset em (f.relativePath ++ "|" ++ t) newEdge := by
            simp [edgeMapStep, processImport, hext, hr, hget, hnew]
          have happ := @mset_eq_append_of_mget_none _ em _ newEdge hget
          have hinv2 : EdgeKeyInv (mset em (f.relativePath ++ "|" ++ t) newEdge) := by
            intro q hq
            rcases mem_mset hq with hq | hq
            · exact hinv q hq
            · rw [hq]
          have hih := ih (mset em (f.relativePath ++ "|" ++ t) newEdge) hinv2
          rw [List.foldl_cons, hstep]
          refine ⟨hih.1, ?_⟩
          rw [hih.2]
          have hnc : ¬ (em.map Prod.fst).contains (pairKey (f.relativePath, t)) = true := by
            intro hc
            rcases mget_isSome_of_contains (by simpa [pairKey] using hc) with ⟨v, hv⟩
            rw [hv] at hget
            cases hget
          rw [hres, firstOccurGo_cons, if_neg hnc, happ]
          have hvp : valuePairs (em ++ [(f.relativePath ++ "|" ++ t, newEdge)])
              = valuePairs em ++ [(f.relativePath, t)] := by
            simp [valuePairs, hnew]
          have hkeys2 : (em ++ [(f.relativePath ++ "|" ++ t, newEdge)]).map Prod.fst
              = em.map Prod.fst ++ [f.relativePath ++ "|" ++ t] := by
            simp
          rw [hvp, hkeys2]
          have hcg : firstOccurGo pairKey
                (em.map Prod.fst ++ [f.relativePath ++ "|" ++ t])
                (resolvedOf projectRoot fpm ps)
              = firstOccurGo pairKey
                (pairKey (f.relativePath, t) :: em.map Prod.fst)
                (resolvedOf projectRoot fpm ps) := by
            refine firstOccurGo_congr _ _ _ _ ?_
            intro a
            simpa [pairKey] using contains_append_singleton (em.map Prod.fst)
              (f.relativePath ++ "|" ++ t) a
          rw [hcg, List.append_assoc, List.singleton_append]

/-! ## The external-dependency set -/

theorem addSet_fold (l : List String) :
    ∀ acc : List String, l.foldl addSet acc = acc ++ firstOccurGo id acc l := by
  induction l with
  | nil => intro acc; simp [firstOccurGo]
  | cons x xs ih =>
    intro acc
    simp only [List.foldl_cons, firstOccurGo_cons, addSet]
    by_cases h : acc.contains x = true
    · rw [if_pos (by simpa using h), if_pos (by exact h), ih]
    · rw [if_neg (by simpa using h), if_neg (by exact h), ih]
      have hc : firstOccurGo id (acc ++ [x]) xs
          = firstOccurGo id (id x :: acc) xs := by
        refine firstOccurGo_congr _ _ _ _ ?_
        intro a
        exact contains_append_singleton _ _ _
      rw [hc, List.append_assoc, List.singleton_append]

theorem extStep_fold (L : List (ParsedFile × ImportStatement)) :
    ∀ ext : List String,
      L.foldl extStep ext = (externalsOf L).foldl addSet ext := by
  induction L with
  | nil => intro ext; rfl
  | cons p ps ih =>
    intro ext
    by_cases h : p.2.isExternal = true
    · simp only [List.foldl_cons, extStep, if_pos h, externalsOf, List.filterMap_cons, h,
        if_true, List.foldl_cons]
      simpa [externalsOf] using ih (addSet ext (getPackageName p.2.source))
    · simp only [List.foldl_cons, extStep, h, Bool.false_eq_true, if_false, externalsOf,
        List.filterMap_cons]
      simpa [externalsOf] using ih ext

/-! ## Definitional component equations for `buildDependencyGraph` -/

theorem build_edges_def (files : List ParsedFile) (root : String)
    (o : PartialGraphOptions) :
    (buildDependencyGraph files root o).edges
      = (buildEdges files root (mkFilePathMap files)).1.map (fun q => q.2) :=
  rfl

theorem build_nodes_def (files : List ParsedFile) (root : String)
    (o : PartialGraphOptions) :
    (buildDependencyGraph files root o).nodes
      = applyCoupling
          (applyDegrees (buildNodes files) (buildDependencyGraph files root o).edges)
          (maxDegree
            (applyDegrees (buildNodes files) (buildDependencyGraph files root o).edges)) :=
  rfl

theorem build_external_def (files : List ParsedFile) (root : String)
    (o : PartialGraphOptions) :
    (buildDependencyGraph files root o).externalDependencies
      = (buildEdges files root (mkFilePathMap files)).2 :=
  rfl

theorem build_circular_def (files : List ParsedFile) (root : String)
    (o : PartialGraphOptions) :
    (buildDependencyGraph files root o).circularDependencies
      = detectCircularDependencies (buildDependencyGraph files root o).nodes
          (buildDependencyGraph files root o).edges :=
  rfl

theorem keys_applyDegrees (E : List DependencyEdge) :
    ∀ m : OMap DependencyNode,
      (applyDegrees m E).map Prod.fst = m.map Prod.fst := by
  unfold applyDegrees
  induction E with
  | nil => intro m; rfl
  | cons e E ih =>
    intro m
    simp only [List.foldl_cons]
    rw [ih, keys_mmodify, keys_mmodify]

theorem keys_applyCoupling (m : OMap DependencyNode) (md : Nat) :
    (applyCoupling m md).map Prod.fst = m.map Prod.fst := by
  unfold applyCoupling
  rw [List.map_map]
  rfl

theorem build_nodes_keys (files : List ParsedFile) (root : String)
    (o : PartialGraphOptions) :
    (buildDependencyGraph files root o).nodes.map Prod.fst
      = firstOccurrences (files.map (fun f => f.relativePath)) := by
  rw [build_nodes_def, keys_applyCoupling, keys_applyDegrees, buildNodes_keys]

/-- **C5 (amended).** Nodes iterate in first-occurrence order of the
input files' relative paths; edges iterate in first-creation order of
the `source|target` edge keys over the resolved non-external imports. -/
theorem c5_insertion_order (files : List ParsedFile) (root : String)
    (o : PartialGraphOptions) :
    (buildDependencyGraph files root o).nodes.map Prod.fst
      = firstOccurrences (files.map (fun f => f.relativePath)) ∧
    (buildDependencyGraph files root o).edges.map (fun e => (e.«from», e.«to»))
      = firstOccurPairs (resolvedPairs files root) := by
  constructor
  · exact build_nodes_keys files root o
  · rw [build_edges_def, buildEdges_flat, List.map_map]
    have h := (edgeMapFold_pairs root (mkFilePathMap files) (flatImports files) []
      (by intro q hq; simp at hq)).2
    simpa [valuePairs, firstOccurPairs, resolvedPairs] using h

/-! ## Values of the lookup map and of `resolveImport` -/

theorem firstHit_mem {m : OMap String} {keys : List String} {t : String}
    (h : firstHit m keys = some t) : ∃ k, mget m k = some t := by
  induction keys with
  | nil => simp [firstHit] at h
  | cons k ks ih =>
    simp only [firstHit] at h
    cases hk : mget m k with
    | some v =>
      rw [hk] at h
      cases h
      exact ⟨k, hk⟩
    | none =>
      rw [hk] at h
      exact ih h

theorem resolveProbe_mem {fpm : OMap String} {resolved t : String}
    (h : resolveProbe fpm resolved = some t) : ∃ k, mget fpm k = some t := by
  unfold resolveProbe at h
  cases h1 : mget fpm resolved with
  | some v =>
    rw [h1] at h
    cases h
    exact ⟨resolved, h1⟩
  | none =>
    rw [h1] at h
    dsimp only at h
    cases h2 : mget fpm (removeExtension resolved) with
    | some v =>
      rw [h2] at h
      cases h
      exact ⟨removeExtension resolved, h2⟩
    | none =>
      rw [h2] at h
      cases h3 : firstHit fpm
          ([".ts", ".tsx", ".js", ".jsx", ".py"].map (fun ext => resolved ++ ext)) with
      | some v =>
        rw [h3] at h
        cases h
        exact firstHit_mem h3
      | none =>
        rw [h3] at h
        exact firstHit_mem h

theorem resolveImport_mem {source fromFile projectRoot : String}
    {fpm : OMap String} {t : String}
    (h : resolveImport source fromFile projectRoot fpm = some t) :
    ∃ k, mget fpm k = some t :=
  resolveProbe_mem h

theorem mem_addFileToPathMap {m : OMap String} {f : ParsedFile}
    {q : String × String} (h : q ∈ addFileToPathMap m f) :
    q ∈ m ∨ q.2 = f.relativePath := by
  have hval : ∀ (mm : OMap String) (k : String),
      q ∈ mset mm k f.relativePath → q ∈ mm ∨ q.2 = f.relativePath := by
    intro mm k hq
    rcases mem_mset hq with hq | hq
    · exact Or.inl hq
    · right; rw [hq]
  have hvalIf : ∀ (c : Prop) (inst : Decidable c) (mm : OMap String) (k : String),
      q ∈ (@ite _ c inst mm (mset mm k f.relativePath)) →
        q ∈ mm ∨ q.2 = f.relativePath := by
    intro c inst mm k hq
    split at hq
    · exact Or.inl hq
    · exact hval mm k hq
  simp only [addFileToPathMap] at h
  split at h
  · rcases hvalIf _ _ _ _ h with h2 | hd
    · rcases hvalIf _ _ _ _ h2 with h1 | hd
      · exact hval _ _ h1
      · exact Or.inr hd
    · exact Or.inr hd
  · rcases hvalIf _ _ _ _ h with h1 | hd
    · exact hval _ _ h1
    · exact Or.inr hd

theorem mkFilePathMap_values {files : List ParsedFile} :
    ∀ (m : OMap String) (q : String × String),
      q ∈ files.foldl addFileToPathMap m →
      q ∈ m ∨ ∃ f ∈ files, q.2 = f.relativePath := by
  induction files with
  | nil => intro m q h; exact Or.inl h
  | cons f fs ih =>
    intro m q h
    rcases ih (addFileToPathMap m f) q h with hq | ⟨g, hg, hv⟩
    · rcases mem_addFileToPathMap hq with hq | hq
      · exact Or.inl hq
      · exact Or.inr ⟨f, List.mem_cons_self _ _, hq⟩
    · exact Or.inr ⟨g, List.mem_cons_of_mem _ hg, hv⟩

theorem mem_flatImports {files : List ParsedFile}
    {p : ParsedFile × ImportStatement} (h : p ∈ flatImports files) :
    p.1 ∈ files ∧ p.2 ∈ p.1.imports := by
  rcases List.mem_flatMap.mp h with ⟨f, hf, hp⟩
  rcases List.mem_map.mp hp with ⟨imp, himp, he⟩
  cases he
  exact ⟨hf, himp⟩

theorem mem_nodes_keys_of_mem_files {files : List ParsedFile} {root : String}
    {o : PartialGraphOptions} {x : String}
    (h : x ∈ files.map (fun f => f.relativePath)) :
    x ∈ (buildDependencyGraph files root o).nodes.map Prod.fst := by
  rw [build_nodes_keys]
  rcases @key_mem_firstOccurGo String id x (files.map (fun f => f.relativePath)) [] h with
    ⟨y, hy, hk⟩ | hc
  · simpa [firstOccurrences] using (show y = x from hk) ▸ hy
  · simp at hc

/-- **C2.** Both endpoints of every edge are node keys; every edge stems
from a non-external import that `resolveImport` resolved (so external
imports and unresolved imports never produce an edge); external imports
contribute exactly the first-occurrence list of their package names. -/
theorem c2_edges_consistent (files : List ParsedFile) (root : String)
    (o : PartialGraphOptions) :
    (∀ e ∈ (buildDependencyGraph files root o).edges,
      e.«from» ∈ (buildDependencyGraph files root o).nodes.map Prod.fst ∧
      e.«to» ∈ (buildDependencyGraph files root o).nodes.map Prod.fst) ∧
    (∀ e ∈ (buildDependencyGraph files root o).edges,
      ∃ f ∈ files, ∃ imp ∈ f.imports, imp.isExternal = false ∧
        resolveImport imp.source f.filePath root (mkFilePathMap files)
          = some e.«to» ∧
        e.«from» = f.relativePath) ∧
    (buildDependencyGraph files root o).externalDependencies
      = firstOccurrences (externalsOf (flatImports files)) := by
  have provenance : ∀ e ∈ (buildDependencyGraph files root o).edges,
      ∃ f ∈ files, ∃ imp ∈ f.imports, imp.isExternal = false ∧
        resolveImport imp.source f.filePath root (mkFilePathMap files)
          = some e.«to» ∧
        e.«from» = f.relativePath := by
    intro e he
    have hpair : (e.«from», e.«to»)
        ∈ (buildDependencyGraph files root o).edges.map
            (fun e => (e.«from», e.«to»)) :=
      List.mem_map.mpr ⟨e, he, rfl⟩
    rw [(c5_insertion_order files root o).2] at hpair
    have hres : (e.«from», e.«to») ∈ resolvedPairs files root :=
      mem_of_mem_firstOccurGo _ _ _ hpair
    rcases List.mem_filterMap.mp hres with ⟨p, hp, hmk⟩
    rcases mem_flatImports hp with ⟨hf, himp⟩
    by_cases hext : p.2.isExternal = true
    · rw [if_pos hext] at hmk
      cases hmk
    · rw [if_neg hext] at hmk
      cases hr : resolveImport p.2.source p.1.filePath root (mkFilePathMap files) with
      | none => rw [hr] at hmk; cases hmk
      | some t =>
        rw [hr] at hmk
        simp only [Option.map_some', Option.some.injEq, Prod.mk.injEq] at hmk
        refine ⟨p.1, hf, p.2, himp, by simpa using hext, ?_, hmk.1.symm⟩
        rw [hr, hmk.2]
  refine ⟨?_, provenance, ?_⟩
  · intro e he
    rcases provenance e he with ⟨f, hf, imp, himp, hext, hr, hfrom⟩
    constructor
    · refine mem_nodes_keys_of_mem_files ?_
      rw [hfrom]
      exact List.mem_map.mpr ⟨f, hf, rfl⟩
    · rcases resolveImport_mem hr with ⟨k, hk⟩
      have hkv := mem_of_mget_eq_some hk
      rcases @mkFilePathMap_values files [] (k, e.«to»)
          (by simpa [mkFilePathMap] using hkv) with hq | ⟨g, hg, hv⟩
      · simp at hq
      · have hv2 : e.«to» = g.relativePath := hv
        refine mem_nodes_keys_of_mem_files ?_
        rw [hv2]
        exact List.mem_map.mpr ⟨g, hg, rfl⟩
  · rw [build_external_def, buildEdges_flat]
    simp only
    rw [extStep_fold, addSet_fold]
    simp [firstOccurrences]

/-! ## Degrees are the sums of incident edge weights -/

theorem mget_applyDegrees (E : List DependencyEdge) :
    ∀ (m : OMap DependencyNode) (p : String),
      mget (applyDegrees m E) p = (mget m p).map (fun n =>
        { n with
          outDegree := n.outDegree + sumWFrom E p,
          inDegree := n.inDegree + sumWTo E p }) := by
  induction E with
  | nil =>
    intro m p
    cases hm : mget m p <;> simp [applyDegrees, sumWFrom, sumWTo, hm]
  | cons e E ih =>
    intro m p
    have hstep : applyDegrees m (e :: E)
        = applyDegrees
            (mmodify (mmodify m e.«from» (fun n => { n with outDegree := n.outDegree + e.weight }))
              e.«to» (fun n => { n with inDegree := n.inDegree + e.weight })) E := rfl
    rw [hstep, ih, mget_mmodify, mget_mmodify]
    have hfrom : sumWFrom (e :: E) p
        = (if e.«from» = p then e.weight else 0) + sumWFrom E p := by
      by_cases hf : e.«from» = p <;> simp [sumWFrom, List.filter_cons, hf]
    have hto : sumWTo (e :: E) p
        = (if e.«to» = p then e.weight else 0) + sumWTo E p := by
      by_cases ht : e.«to» = p <;> simp [sumWTo, List.filter_cons, ht]
    by_cases hf : e.«from» = p <;> by_cases ht : e.«to» = p <;>
      cases hm : mget m p <;>
        simp [hf, ht, hm, hfrom, hto, DependencyNode.mk.injEq] <;> omega

theorem mget_applyCoupling (m : OMap DependencyNode) (md : Nat) (p : String) :
    mget (applyCoupling m md) p = (mget m p).map (fun n =>
      { n with coupling := mkRat (n.inDegree + n.outDegree) md }) := by
  induction m with
  | nil => simp [applyCoupling, mget]
  | cons hd tl ih =>
    by_cases h : hd.1 = p <;>
      simpa [applyCoupling, mget, h] using ih

theorem mem_buildNodes_values {files : List ParsedFile} {q : String × DependencyNode} :
    ∀ m : OMap DependencyNode,
      q ∈ files.foldl (fun m f => mset m f.relativePath (mkNode f)) m →
      q ∈ m ∨ ∃ f ∈ files, q.2 = mkNode f := by
  induction files with
  | nil => intro m h; exact Or.inl h
  | cons f fs ih =>
    intro m h
    rcases ih (mset m f.relativePath (mkNode f)) h with hq | ⟨g, hg, hv⟩
    · rcases mem_mset hq with hq | hq
      · exact Or.inl hq
      · exact Or.inr ⟨f, List.mem_cons_self _ _, by rw [hq]⟩
    · exact Or.inr ⟨g, List.mem_cons_of_mem _ hg, hv⟩

theorem buildNodes_degrees_zero {files : List ParsedFile} {p : String}
    {n : DependencyNode} (h : mget (buildNodes files) p = some n) :
    n.outDegree = 0 ∧ n.inDegree = 0 := by
  have hmem := mem_of_mget_eq_some h
  rcases @mem_buildNodes_values files _ [] (by simpa [buildNodes] using hmem) with
    hq | ⟨f, hf, hv⟩
  · simp at hq
  · have : n = mkNode f := hv
    rw [this]
    exact ⟨rfl, rfl⟩

/-- **C1.** In every graph returned by `buildDependencyGraph`, each
node's `outDegree` is the sum of the weights of the edges whose `from`
is that node's path, and its `inDegree` the sum over edges whose `to`
is that path. -/
theorem c1_degrees_are_weight_sums (files : List ParsedFile) (root : String)
    (o : PartialGraphOptions) :
    ∀ pn ∈ (buildDependencyGraph files root o).nodes,
      pn.2.outDegree = sumWFrom (buildDependencyGraph files root o).edges pn.1 ∧
      pn.2.inDegree = sumWTo (buildDependencyGraph files root o).edges pn.1 := by
  intro pn hpn
  have hnd : ((buildDependencyGraph files root o).nodes.map Prod.fst).Nodup := by
    rw [build_nodes_def, keys_applyCoupling, keys_applyDegrees]
    exact buildNodes_keys_nodup files
  have hget : mget (buildDependencyGraph files root o).nodes pn.1 = some pn.2 := by
    rcases pn with ⟨p, n⟩
    exact mget_eq_some_of_mem hnd hpn
  rw [build_nodes_def, mget_applyCoupling, mget_applyDegrees] at hget
  cases hbn : mget (buildNodes files) pn.1 with
  | none => rw [hbn] at hget; cases hget
  | some n0 =>
    rw [hbn] at hget
    simp only [Option.map_some', Option.some.injEq] at hget
    rcases buildNodes_degrees_zero hbn with ⟨ho, hi⟩
    rw [← hget]
    simp [ho, hi]

/-! ## Recorded cycles are genuine edge paths -/

theorem mem_addSet {l : List String} {x y : String} :
    y ∈ addSet l x ↔ y ∈ l ∨ y = x := by
  unfold addSet
  split
  · rename_i h
    constructor
    · exact Or.inl
    · rintro (hy | rfl)
      · exact hy
      · simpa using h
  · simp [List.mem_append]

theorem removeSet_addSet {l : List String} {x : String} (h : x ∉ l) :
    removeSet (addSet l x) x = l := by
  unfold addSet removeSet
  rw [if_neg (by simpa using h), List.filter_append]
  have h1 : l.filter (fun y => y ≠ x) = l := by
    refine List.filter_eq_self.mpr ?_
    intro a ha
    simp only [ne_eq, decide_eq_true_eq]
    rintro rfl
    exact h ha
  have h2 : List.filter (fun y => y ≠ x) [x] = [] := by simp
  rw [h1, h2, List.append_nil]

theorem getLast?_drop_of_lt {l : List String} :
    ∀ {n : Nat}, n < l.length → (l.drop n).getLast? = l.getLast? := by
  induction l with
  | nil => intro n hn; simp at hn
  | cons a t ih =>
    intro n hn
    cases n with
    | zero => rfl
    | succ m =>
      simp only [List.drop_succ_cons]
      rw [ih (by simpa using hn)]
      cases t with
      | nil => simp at hn
      | cons b t2 => simp [List.getLast?_cons_cons]

theorem cycleOk_of_record {adj : OMap (List String)} {path : List String}
    {n nb : String} (hchain : List.Chain' (adjRel adj) path)
    (hlast : path.getLast? = some n) (hnb : nb ∈ path)
    (hadj : adjRel adj n nb) :
    CycleOk adj (path.drop (path.indexOf nb) ++ [nb]) := by
  have hi : path.indexOf nb < path.length := List.indexOf_lt_length.mpr hnb
  have hlen : (path.drop (path.indexOf nb)).length = path.length - path.indexOf nb := by
    simp
  have hne : path.drop (path.indexOf nb) ≠ [] := by
    intro h
    rw [h] at hlen
    simp at hlen
    omega
  refine ⟨?_, ?_, ?_⟩
  · rw [List.length_append, hlen]
    simp
    omega
  · have hhead : (path.drop (path.indexOf nb)).head? = some nb := by
      rw [List.head?_drop]
      simpa using List.indexOf_get? hnb
    rw [List.getLast?_concat]
    cases hd : path.drop (path.indexOf nb) with
    | nil => exact absurd hd hne
    | cons y ys =>
      rw [hd] at hhead
      simp only [List.head?_cons, Option.some.injEq] at hhead
      simp [hhead]
  · rw [List.chain'_append]
    refine ⟨hchain.drop _, List.chain'_singleton _, ?_⟩
    intro x hx y hy
    rw [getLast?_drop_of_lt hi, hlast] at hx
    simp only [List.head?_cons, Option.mem_def, Option.some.injEq] at hx hy
    subst hx
    subst hy
    exact hadj

theorem dfsNeighbors_spec (adj : OMap (List String))
    (rec : String → DfsState → DfsState) (hrec : DfsCallOk adj rec) :
    ∀ (l : List String) (st : DfsState) (n : String), StInv adj st →
      st.path.getLast? = some n → (∀ x ∈ l, adjRel adj n x) →
      StInv adj (dfsNeighbors rec l st) ∧
        (dfsNeighbors rec l st).path = st.path ∧
        (dfsNeighbors rec l st).recStack = st.recStack ∧
        (∀ x ∈ st.visited, x ∈ (dfsNeighbors rec l st).visited) := by
  intro l
  induction l with
  | nil =>
    intro st n hinv _ _
    exact ⟨hinv, rfl, rfl, fun x hx => hx⟩
  | cons nb rest ih =>
    intro st n hinv hlast hadj
    simp only [dfsNeighbors]
    by_cases hv : st.visited.contains nb = true
    · rw [if_pos hv]
      by_cases hr : st.recStack.contains nb = true
      · rw [if_pos hr]
        have hnbpath : nb ∈ st.path :=
          (hinv.2.1 nb).mp (by simpa using hr)
        have hcyc : CycleOk adj (st.path.drop (st.path.indexOf nb) ++ [nb]) :=
          cycleOk_of_record hinv.2.2.1 hlast hnbpath
            (hadj nb (List.mem_cons_self _ _))
        have hinv₁ : StInv adj
            { st with cycles := st.cycles ++
                [st.path.drop (st.path.indexOf nb) ++ [nb]] } := by
          refine ⟨hinv.1, hinv.2.1, hinv.2.2.1, ?_⟩
          intro c hc
          rcases List.mem_append.mp hc with hc | hc
          · exact hinv.2.2.2 c hc
          · rw [List.mem_singleton.mp hc]
            exact hcyc
        exact ih _ n hinv₁ hlast (fun x hx => hadj x (List.mem_cons_of_mem _ hx))
      · rw [if_neg hr]
        exact ih st n hinv hlast (fun x hx => hadj x (List.mem_cons_of_mem _ hx))
    · rw [if_neg hv]
      have hnv : nb ∉ st.visited := by simpa using hv
      have hlink : st.path = [] ∨
          ∃ last, st.path.getLast? = some last ∧ adjRel adj last nb :=
        Or.inr ⟨n, hlast, hadj nb (List.mem_cons_self _ _)⟩
      rcases hrec nb st hinv hnv hlink with ⟨hinv₁, hpath₁, hrs₁, hvis₁⟩
      rcases ih (rec nb st) n hinv₁ (by rw [hpath₁]; exact hlast)
          (fun x hx => hadj x (List.mem_cons_of_mem _ hx)) with
        ⟨hinv₂, hpath₂, hrs₂, hvis₂⟩
      exact ⟨hinv₂, by rw [hpath₂, hpath₁], by rw [hrs₂, hrs₁],
        fun x hx => hvis₂ x (hvis₁ x hx)⟩

theorem dfs_spec (adj : OMap (List String)) :
    ∀ fuel, DfsCallOk adj (dfs adj fuel) := by
  intro fuel
  induction fuel with
  | zero =>
    intro node st hinv _ _
    exact ⟨hinv, rfl, rfl, fun x hx => hx⟩
  | succ f ihf =>
    intro node st hinv hnv hlink
    have hnrs : node ∉ st.recStack := by
      intro h
      exact hnv (hinv.1 node ((hinv.2.1 node).mp h))
    set st₁ : DfsState :=
      { visited := addSet st.visited node,
        recStack := addSet st.recStack node,
        path := st.path ++ [node],
        cycles := st.cycles } with hst₁
    have hinv₁ : StInv adj st₁ := by
      refine ⟨?_, ?_, ?_, ?_⟩
      · intro x hx
        rcases List.mem_append.mp hx with hx | hx
        · exact mem_addSet.mpr (Or.inl (hinv.1 x hx))
        · exact mem_addSet.mpr (Or.inr (List.mem_singleton.mp hx))
      · intro x
        rw [mem_addSet, List.mem_append, List.mem_singleton, hinv.2.1 x]
      · rw [List.chain'_append]
        refine ⟨hinv.2.2.1, List.chain'_singleton _, ?_⟩
        intro x hx y hy
        simp only [List.head?_cons, Option.mem_def, Option.some.injEq] at hy
        rcases hlink with hemp | ⟨last, hl, ha⟩
        · rw [hemp] at hx
          simp at hx
        · rw [hl] at hx
          simp only [Option.mem_def, Option.some.injEq] at hx
          subst hx
          subst hy
          exact ha
      · exact hinv.2.2.2
    have hlast₁ : st₁.path.getLast? = some node := by
      simp [hst₁, List.getLast?_concat]
    rcases dfsNeighbors_spec adj (dfs adj f) ihf (mgetD adj node []) st₁ node
        hinv₁ hlast₁ (fun x hx => hx) with ⟨hinv₂, hpath₂, hrs₂, hvis₂⟩
    have hrs₂2 : (dfsNeighbors (dfs adj f) (mgetD adj node []) st₁).recStack
        = addSet st.recStack node := hrs₂
    have hpath₂2 : (dfsNeighbors (dfs adj f) (mgetD adj node []) st₁).path
        = st.path ++ [node] := hpath₂
    have hdfs : dfs adj (f + 1) node st =
        { visited := (dfsNeighbors (dfs adj f) (mgetD adj node []) st₁).visited,
          recStack := removeSet
            (dfsNeighbors (dfs adj f) (mgetD adj node []) st₁).recStack node,
          path := (dfsNeighbors (dfs adj f) (mgetD adj node []) st₁).path.dropLast,
          cycles := (dfsNeighbors (dfs adj f) (mgetD adj node []) st₁).cycles } := rfl
    rw [hdfs, hrs₂2, hpath₂2, removeSet_addSet hnrs, List.dropLast_concat]
    refine ⟨⟨?_, hinv.2.1, hinv.2.2.1, hinv₂.2.2.2⟩, rfl, rfl, ?_⟩
    · intro x hx
      exact hvis₂ x (mem_addSet.mpr (Or.inl (hinv.1 x hx)))
    · intro x hx
      exact hvis₂ x (mem_addSet.mpr (Or.inl hx))

theorem buildAdjacency_init_values (nodes : OMap DependencyNode) :
    ∀ (m : OMap (List String)), (∀ q ∈ m, q.2 = ([] : List String)) →
      ∀ q ∈ nodes.foldl (fun a p => mset a p.1 []) m, q.2 = ([] : List String) := by
  induction nodes with
  | nil => intro m hm q hq; exact hm q hq
  | cons p ps ih =>
    intro m hm q hq
    refine ih (mset m p.1 []) ?_ q hq
    intro r hr
    rcases mem_mset hr with hr | hr
    · exact hm r hr
    · rw [hr]

theorem adj_fold_sub (E : List DependencyEdge) :
    ∀ (m : OMap (List String)) (a b : String),
      b ∈ mgetD (E.foldl (fun acc e => mmodify acc e.«from» (fun l => l ++ [e.«to»])) m) a [] →
      b ∈ mgetD m a [] ∨ ∃ e ∈ E, e.«from» = a ∧ e.«to» = b := by
  induction E with
  | nil => intro m a b h; exact Or.inl h
  | cons e E ih =>
    intro m a b h
    rcases ih _ a b h with h1 | ⟨e2, he2, hfa, htb⟩
    · unfold mgetD at h1
      rw [mget_mmodify] at h1
      split at h1
      · rename_i hfa
        cases hm : mget m a with
        | none =>
          rw [hm] at h1
          simp at h1
        | some l =>
          rw [hm] at h1
          simp only [Option.map_some', Option.getD_some] at h1
          rcases List.mem_append.mp h1 with h1 | h1
          · left
            simp [mgetD, hm, h1]
          · exact Or.inr ⟨e, List.mem_cons_self _ _, hfa, (List.mem_singleton.mp h1).symm⟩
      · exact Or.inl h1
    · exact Or.inr ⟨e2, List.mem_cons_of_mem _ he2, hfa, htb⟩

theorem buildAdjacency_sub (nodes : OMap DependencyNode)
    (edges : List DependencyEdge) {a b : String}
    (h : adjRel (buildAdjacency nodes edges) a b) :
    ∃ e ∈ edges, e.«from» = a ∧ e.«to» = b := by
  unfold buildAdjacency at h
  rcases adj_fold_sub edges _ a b h with h1 | h1
  · exfalso
    unfold mgetD at h1
    cases hm : mget (nodes.foldl (fun a p => mset a p.1 []) []) a with
    | none => rw [hm] at h1; simp at h1
    | some l =>
      rw [hm] at h1
      have := buildAdjacency_init_values nodes [] (by simp) _ (mem_of_mget_eq_some hm)
      simp only at this
      rw [this] at h1
      simp at h1
  · exact h1

theorem detect_cycles_ok (nodes : OMap DependencyNode)
    (edges : List DependencyEdge) :
    ∀ c ∈ detectCircularDependencies nodes edges,
      2 ≤ c.length ∧ c.head? = c.getLast? ∧
        List.Chain' (fun a b => ∃ e ∈ edges, e.«from» = a ∧ e.«to» = b) c := by
  intro c hc
  unfold detectCircularDependencies at hc
  set adj := buildAdjacency nodes edges with hadj
  set fuel := nodes.length + edges.length + 1 with hfuel
  have main : ∀ (ns : List (String × DependencyNode)) (st : DfsState),
      StInv adj st → st.path = [] →
      StInv adj (ns.foldl
        (fun st p => if st.visited.contains p.1 then st else dfs adj fuel p.1 st) st) ∧
      (ns.foldl
        (fun st p => if st.visited.contains p.1 then st else dfs adj fuel p.1 st) st).path
        = [] := by
    intro ns
    induction ns with
    | nil => intro st hinv hpath; exact ⟨hinv, hpath⟩
    | cons p ps ih =>
      intro st hinv hpath
      simp only [List.foldl_cons]
      by_cases hv : st.visited.contains p.1 = true
      · rw [if_pos hv]
        exact ih st hinv hpath
      · rw [if_neg hv]
        rcases dfs_spec adj fuel p.1 st hinv (by simpa using hv) (Or.inl hpath) with
          ⟨hinv₁, hpath₁, _, _⟩
        exact ih _ hinv₁ (by rw [hpath₁, hpath])
    
  have hres := main nodes
    { visited := [], recStack := [], path := [], cycles := [] }
    ⟨by simp, by simp, List.chain'_nil, by simp⟩ rfl
  have hok := hres.1.2.2.2 c hc
  refine ⟨hok.1, hok.2.1, ?_⟩
  exact hok.2.2.imp (fun a b hab => buildAdjacency_sub nodes edges hab)

/-! ## Shape of the records produced by the Python parser -/

theorem isExternalImport_eq_not_rel (s : String) :
    isExternalImport s = !isRelativeImport s := by
  unfold isExternalImport isRelativeImport
  by_cases h : (strStartsWith s "." || strStartsWith s "/") = true
  · simp [h]
  · simp [h]

theorem mem_extractSimpleImports {c o : String} {imp : ImportStatement}
    (h : imp ∈ extractSimpleImports c o) :
    ∃ s l, imp = createImport s .pythonImport l := by
  unfold extractSimpleImports at h
  rcases List.mem_flatMap.mp h with ⟨m, _, hm⟩
  rcases List.mem_filterMap.mp hm with ⟨mod, _, hmod⟩
  dsimp only at hmod
  split at hmod
  · exact ⟨_, _, (Option.some.injEq _ _).mp hmod.symm⟩
  · simp at hmod

theorem mem_extractFromImports {c o : String} {imp : ImportStatement}
    (h : imp ∈ extractFromImports c o) :
    imp.type = .pythonFrom ∧
    ∃ mp : String, imp.source = (if mp = "" then "." else mp) ∧
      imp.isRelative = strStartsWith mp "." ∧
      imp.isExternal = (!strStartsWith mp "." && !(mp.data.contains '.')) := by
  unfold extractFromImports at h
  rcases List.mem_map.mp h with ⟨m, _, hm⟩
  subst hm
  exact ⟨rfl, String.mk (jsTrim m.2.1), rfl, rfl, rfl⟩

/-! ## The glob conversion against its compiled regex -/

theorem prg_cons (f : Nat) (c : Char) (R : List Char) :
    parseRegexGo (f + 1) (c :: R) =
      (match regexHead c with
       | 1 =>
         (match R with
          | c2 :: rest2 => (parseRegexGo f rest2).map (fun ts => RTok.rlit c2 :: ts)
          | [] => none)
       | 2 =>
         (match R with
          | '^' :: '/' :: ']' :: '*' :: rest2 =>
            (parseRegexGo f rest2).map (fun ts => RTok.rnonslash :: ts)
          | _ => none)
       | 3 => (parseRegexGo f R).map (fun ts => RTok.rany :: ts)
       | 4 => none
       | _ => (parseRegexGo f R).map (fun ts => RTok.rlit c :: ts)) := rfl

theorem rep2_cons_ne (c : Char) (T : List Char) (hne : ¬ c = '*') :
    rep2 (c :: T) = c :: rep2 T := by
  rw [rep2.eq_def]
  simp [hne]

theorem rep2_star_star (T : List Char) : rep2 ('*' :: '*' :: T) = '.' :: '*' :: rep2 T := by
  rw [rep2.eq_def]
  simp

theorem rep2_star_cons (c2 : Char) (T : List Char) (hne : ¬ c2 = '*') :
    rep2 ('*' :: c2 :: T) = '*' :: rep2 (c2 :: T) := by
  rw [rep2.eq_def]
  simp [hne]

theorem rep2_star_headne (T : List Char) (h : ∀ d, T.head? = some d → ¬ d = '*') :
    rep2 ('*' :: T) = '*' :: rep2 T := by
  cases T with
  | nil => rfl
  | cons d T2 => exact rep2_star_cons d T2 (h d rfl)

theorem cg_star_star (T : List Char) :
    compileGlob ('*' :: '*' :: T) = .rany :: .rnonslash :: compileGlob T := by
  rw [compileGlob.eq_def]
  simp

theorem cg_star_cons (c2 : Char) (T : List Char) (hne : ¬ c2 = '*') :
    compileGlob ('*' :: c2 :: T) = .rnonslash :: compileGlob (c2 :: T) := by
  rw [compileGlob.eq_def]
  simp [hne]

theorem cg_cons_ne (c : Char) (T : List Char) (hne : ¬ c = '*') :
    compileGlob (c :: T) = .rlit c :: compileGlob T := by
  rw [compileGlob.eq_def]
  simp [hne]

theorem gam_star_star_cons (pt2 : List Char) (d : Char) (s2 : List Char) :
    globAmendedMatch ('*' :: '*' :: pt2) (d :: s2)
      = ((!(isLineTerm d)) && nsLoop (globAmendedMatch pt2) s2) := rfl

theorem gam_star_cons (c2 : Char) (pt2 s : List Char) (hne : ¬ c2 = '*') :
    globAmendedMatch ('*' :: c2 :: pt2) s = nsLoop (globAmendedMatch (c2 :: pt2)) s := by
  rw [globAmendedMatch.eq_def]
  simp [hne]

theorem gam_lit_nil (c : Char) (pt : List Char) (hne : ¬ c = '*') :
    globAmendedMatch (c :: pt) [] = false := by
  rw [globAmendedMatch.eq_def]
  simp [hne]

theorem gam_lit_cons (c : Char) (pt : List Char) (d : Char) (s2 : List Char)
    (hne : ¬ c = '*') :
    globAmendedMatch (c :: pt) (d :: s2)
      = (decide (c.toLower = d.toLower) && globAmendedMatch pt s2) := by
  rw [globAmendedMatch.eq_def]
  simp [hne]

theorem rep_eq_render (pd : List Char) :
    rep3 (rep2 (rep1 pd)) = renderToks (compileGlob pd) := by
  induction pd using compileGlob.induct with
  | case1 => rfl
  | case2 rest2 ih =>
    rw [show rep1 ('*' :: '*' :: rest2) = '*' :: '*' :: rep1 rest2 from by simp [rep1],
        rep2_star_star, cg_star_star]
    simp [rep3, renderToks, ih]
  | case3 c2 rest2 hne ih =>
    have hh : ∀ d, (rep1 (c2 :: rest2)).head? = some d → ¬ d = '*' := by
      intro d hd
      simp only [rep1] at hd
      by_cases hdot : c2 = '.'
      · rw [if_pos hdot] at hd
        simp at hd
        subst hd
        decide
      · rw [if_neg hdot] at hd
        simp at hd
        subst hd
        exact hne
    rw [show rep1 ('*' :: c2 :: rest2) = '*' :: rep1 (c2 :: rest2) from by simp [rep1],
        rep2_star_headne _ hh, cg_star_cons c2 rest2 hne]
    simp [rep3, renderToks, ih]
  | case4 => rfl
  | case5 c rest hne ih =>
    by_cases hdot : c = '.'
    · subst hdot
      rw [show rep1 ('.' :: rest) = '\\' :: '.' :: rep1 rest from by simp [rep1],
          rep2_cons_ne '\\' _ (by decide), rep2_cons_ne '.' _ (by decide),
          cg_cons_ne '.' rest (by decide)]
      simp [rep3, renderToks, ih]
    · rw [show rep1 (c :: rest) = c :: rep1 rest from by simp [rep1, hdot],
          rep2_cons_ne c _ hne, cg_cons_ne c rest hne]
      simp [rep3, renderToks, ih, hdot, hne]

theorem plain_rlitOk {c : Char} (h : plainGlobChar c = true) (h2 : ¬ c = '*') :
    rlitOk (.rlit c) = true := by
  cases hc : (['\\', '[', '*', '(', ')', '|', '+', '?', '$', '^'] : List Char).contains c with
  | false =>
    have hr : rlitOk (.rlit c)
        = !((['\\', '[', '*', '(', ')', '|', '+', '?', '$', '^'] : List Char).contains c) := rfl
    rw [hr, hc]
    rfl
  | true =>
    exfalso
    have hmem : c ∈ (['\\', '[', '*', '(', ')', '|', '+', '?', '$', '^'] : List Char) := by
      simpa using hc
    simp only [List.mem_cons, List.not_mem_nil, or_false] at hmem
    rcases hmem with rfl | rfl | rfl | rfl | rfl | rfl | rfl | rfl | rfl | rfl
    · exact absurd h (by decide)
    · exact absurd h (by decide)
    · exact h2 rfl
    · exact absurd h (by decide)
    · exact absurd h (by decide)
    · exact absurd h (by decide)
    · exact absurd h (by decide)
    · exact absurd h (by decide)
    · exact absurd h (by decide)
    · exact absurd h (by decide)

theorem compileGlob_all_rlitOk (pd : List Char) (h : pd.all plainGlobChar = true) :
    (compileGlob pd).all rlitOk = true := by
  induction pd using compileGlob.induct with
  | case1 => rfl
  | case2 rest2 ih =>
    simp only [List.all_cons, Bool.and_eq_true] at h
    rw [cg_star_star]
    simp only [List.all_cons, Bool.and_eq_true]
    exact ⟨rfl, rfl, ih h.2.2⟩
  | case3 c2 rest2 hne ih =>
    simp only [List.all_cons, Bool.and_eq_true] at h
    have h2 : (c2 :: rest2).all plainGlobChar = true := by
      simp only [List.all_cons, Bool.and_eq_true]
      exact ⟨h.2.1, h.2.2⟩
    rw [cg_star_cons c2 rest2 hne]
    simp only [List.all_cons, Bool.and_eq_true]
    exact ⟨rfl, ih h2⟩
  | case4 => rfl
  | case5 c rest hne ih =>
    simp only [List.all_cons, Bool.and_eq_true] at h
    rw [cg_cons_ne c rest hne]
    simp only [List.all_cons, Bool.and_eq_true]
    exact ⟨plain_rlitOk h.1 hne, ih h.2⟩

theorem regexHead_eq_zero {c : Char} (hok : rlitOk (.rlit c) = true) (hdot : ¬ c = '.') :
    regexHead c = 0 := by
  have hmem : ¬ c ∈ (['\\', '[', '*', '(', ')', '|', '+', '?', '$', '^'] : List Char) := by
    have hr : rlitOk (.rlit c)
        = !((['\\', '[', '*', '(', ')', '|', '+', '?', '$', '^'] : List Char).contains c) := rfl
    rw [hr, Bool.not_eq_true'] at hok
    simpa using hok
  simp only [List.mem_cons, List.not_mem_nil, or_false, not_or] at hmem
  obtain ⟨h1, h2, h3, h4, h5, h6, h7, h8, h9, h10⟩ := hmem
  simp [regexHead, h1, h2, h3, h4, h5, h6, h7, h8, h9, h10, hdot]

theorem parse_render_go : ∀ (ts : List RTok) (fuel : Nat),
    (renderToks ts).length < fuel → ts.all rlitOk = true →
    parseRegexGo fuel (renderToks ts) = some ts := by
  intro ts
  induction ts with
  | nil =>
    intro fuel hf _
    cases fuel with
    | zero => simp at hf
    | succ f => rfl
  | cons t ts ih =>
    intro fuel hf h
    rw [List.all_cons, Bool.and_eq_true] at h
    obtain ⟨ht, hts⟩ := h
    cases fuel with
    | zero => simp at hf
    | succ f =>
      cases t with
      | rany =>
        have hrt : renderToks (RTok.rany :: ts) = '.' :: renderToks ts := by
          simp [renderToks]
        rw [hrt] at hf ⊢
        simp only [List.length_cons] at hf
        rw [prg_cons, show regexHead '.' = 3 from rfl]
        show (parseRegexGo f (renderToks ts)).map (fun l => RTok.rany :: l)
            = some (RTok.rany :: ts)
        rw [ih f (by omega) hts]
        rfl
      | rnonslash =>
        have hrt : renderToks (RTok.rnonslash :: ts)
            = '[' :: '^' :: '/' :: ']' :: '*' :: renderToks ts := by
          simp [renderToks]
        rw [hrt] at hf ⊢
        simp only [List.length_cons] at hf
        rw [prg_cons, show regexHead '[' = 2 from rfl]
        show (parseRegexGo f (renderToks ts)).map (fun l => RTok.rnonslash :: l)
            = some (RTok.rnonslash :: ts)
        rw [ih f (by omega) hts]
        rfl
      | rlit c =>
        by_cases hdot : c = '.'
        · subst hdot
          have hrt : renderToks (RTok.rlit '.' :: ts) = '\\' :: '.' :: renderToks ts := by
            simp [renderToks]
          rw [hrt] at hf ⊢
          simp only [List.length_cons] at hf
          rw [prg_cons, show regexHead '\\' = 1 from rfl]
          show (parseRegexGo f (renderToks ts)).map (fun l => RTok.rlit '.' :: l)
              = some (RTok.rlit '.' :: ts)
          rw [ih f (by omega) hts]
          rfl
        · have hrt : renderToks (RTok.rlit c :: ts) = c :: renderToks ts := by
            simp [renderToks, hdot]
          rw [hrt] at hf ⊢
          simp only [List.length_cons] at hf
          rw [prg_cons, regexHead_eq_zero ht hdot]
          show (parseRegexGo f (renderToks ts)).map (fun l => RTok.rlit c :: l)
              = some (RTok.rlit c :: ts)
          rw [ih f (by omega) hts]
          rfl

theorem parse_render (ts : List RTok) (h : ts.all rlitOk = true) :
    parseRegex (renderToks ts) = some ts :=
  parse_render_go ts ((renderToks ts).length + 1) (Nat.lt_succ_self _) h

theorem nsLoop_congr {k1 k2 : List Char → Bool} (h : ∀ s, k1 s = k2 s) :
    ∀ s, nsLoop k1 s = nsLoop k2 s := by
  intro s
  induction s with
  | nil => simp [nsLoop, h]
  | cons d s2 ih => simp [nsLoop, h, ih]

theorem matchToks_compileGlob (pt : List Char) :
    ∀ s, matchToks (compileGlob pt) s = globAmendedMatch pt s := by
  induction pt using compileGlob.induct with
  | case1 => intro s; rfl
  | case2 rest2 ih =>
    intro s
    rw [cg_star_star]
    cases s with
    | nil => rfl
    | cons d s2 =>
      rw [gam_star_star_cons]
      show ((!(isLineTerm d)) && nsLoop (matchToks (compileGlob rest2)) s2) = _
      rw [nsLoop_congr ih s2]
  | case3 c2 rest2 hne ih =>
    intro s
    rw [cg_star_cons c2 rest2 hne, gam_star_cons c2 rest2 s hne]
    exact nsLoop_congr ih s
  | case4 =>
    intro s
    show nsLoop (matchToks []) s = nsLoop (globAmendedMatch []) s
    exact nsLoop_congr (fun _ => rfl) s
  | case5 c rest hne ih =>
    intro s
    rw [cg_cons_ne c rest hne]
    cases s with
    | nil =>
      rw [gam_lit_nil c rest hne]
      rfl
    | cons d s2 =>
      rw [gam_lit_cons c rest d s2 hne]
      show (decide (c.toLower = d.toLower) && matchToks (compileGlob rest) s2) = _
      rw [ih s2]


/-! ## Layer hierarchy: sorting and inbound-weight counting -/

theorem mem_insSorted (key : ArchitectureLayer → Nat) (x : ArchitectureLayer) :
    ∀ (l : List ArchitectureLayer) (b : ArchitectureLayer),
      b ∈ insSorted key x l → b = x ∨ b ∈ l := by
  intro l
  induction l with
  | nil =>
    intro b hb
    simp [insSorted] at hb
    exact Or.inl hb
  | cons y ys ih =>
    intro b hb
    by_cases hxy : key x ≤ key y
    · rw [show insSorted key x (y :: ys) = x :: y :: ys from by simp [insSorted, hxy]] at hb
      rcases List.mem_cons.mp hb with rfl | hb
      · exact Or.inl rfl
      · exact Or.inr hb
    · rw [show insSorted key x (y :: ys) = y :: insSorted key x ys from by
          simp [insSorted, hxy]] at hb
      rcases List.mem_cons.mp hb with rfl | hb
      · exact Or.inr (List.mem_cons_self _ _)
      · rcases ih b hb with h | h
        · exact Or.inl h
        · exact Or.inr (List.mem_cons_of_mem _ h)

theorem insSorted_pairwise (key : ArchitectureLayer → Nat) (x : ArchitectureLayer) :
    ∀ (l : List ArchitectureLayer),
      List.Pairwise (fun a b => key a ≤ key b) l →
      List.Pairwise (fun a b => key a ≤ key b) (insSorted key x l) := by
  intro l
  induction l with
  | nil => intro _; simp [insSorted]
  | cons y ys ih =>
    intro h
    rw [List.pairwise_cons] at h
    obtain ⟨hy, hys⟩ := h
    by_cases hxy : key x ≤ key y
    · rw [show insSorted key x (y :: ys) = x :: y :: ys from by simp [insSorted, hxy]]
      rw [List.pairwise_cons]
      refine ⟨?_, List.pairwise_cons.mpr ⟨hy, hys⟩⟩
      intro b hb
      rcases List.mem_cons.mp hb with rfl | hb
      · exact hxy
      · exact le_trans hxy (hy b hb)
    · rw [show insSorted key x (y :: ys) = y :: insSorted key x ys from by
          simp [insSorted, hxy]]
      rw [List.pairwise_cons]
      refine ⟨?_, ih hys⟩
      intro b hb
      rcases mem_insSorted key x (ys) b hb with rfl | hb
      · exact le_of_not_le hxy
      · exact hy b hb

theorem insSorted_perm (key : ArchitectureLayer → Nat) (x : ArchitectureLayer) :
    ∀ (l : List ArchitectureLayer), List.Perm (insSorted key x l) (x :: l) := by
  intro l
  induction l with
  | nil => simp [insSorted]
  | cons y ys ih =>
    by_cases hxy : key x ≤ key y
    · rw [show insSorted key x (y :: ys) = x :: y :: ys from by simp [insSorted, hxy]]
    · rw [show insSorted key x (y :: ys) = y :: insSorted key x ys from by
          simp [insSorted, hxy]]
      exact ((ih.cons y).trans (List.Perm.swap x y ys))

theorem stableSort_pairwise (key : ArchitectureLayer → Nat) (l : List ArchitectureLayer) :
    List.Pairwise (fun a b => key a ≤ key b) (stableSortByKey key l) := by
  induction l with
  | nil => simp [stableSortByKey]
  | cons x xs ih =>
    show List.Pairwise _ (insSorted key x (stableSortByKey key xs))
    exact insSorted_pairwise key x _ ih

theorem stableSort_perm (key : ArchitectureLayer → Nat) (l : List ArchitectureLayer) :
    List.Perm (stableSortByKey key l) l := by
  induction l with
  | nil => simp [stableSortByKey]
  | cons x xs ih =>
    show List.Perm (insSorted key x (stableSortByKey key xs)) (x :: xs)
    exact (insSorted_perm key x _).trans (ih.cons x)

theorem pairwise_enumFrom_relabel {R : ArchitectureLayer → ArchitectureLayer → Prop}
    (hR : ∀ a b i j, R a b → R { a with level := i } { b with level := j }) :
    ∀ (L : List ArchitectureLayer) (n : Nat), L.Pairwise R →
      List.Pairwise R ((L.enumFrom n).map (fun p => { p.2 with level := p.1 })) := by
  intro L
  induction L with
  | nil => intro n _; simp
  | cons x xs ih =>
    intro n h
    rw [List.pairwise_cons] at h
    rw [List.enumFrom_cons, List.map_cons, List.pairwise_cons]
    constructor
    · intro b hb
      rcases List.mem_map.mp hb with ⟨p, hp, rfl⟩
      exact hR x p.2 n p.1 (h.1 p.2 (List.snd_mem_of_mem_enumFrom hp))
    · exact ih (n + 1) h.2

/-! Counting: the nested fold of `buildIncomingCount` as a flat keyed sum -/

theorem keySum_append (A B : List (String × Nat)) (k : String) :
    keySum (A ++ B) k = keySum A k + keySum B k := by
  induction A with
  | nil => simp [keySum]
  | cons q rest ih => simp [keySum, ih]; omega

theorem keySum_eq_zero {L : List (String × Nat)} {k : String}
    (h : ¬ k ∈ L.map Prod.fst) : keySum L k = 0 := by
  induction L with
  | nil => rfl
  | cons q rest ih =>
    simp only [List.map_cons, List.mem_cons, not_or] at h
    rw [keySum, if_neg (fun e => h.1 e.symm), ih h.2]

theorem keySum_eq_mgetD {L : List (String × Nat)} (hnd : (L.map Prod.fst).Nodup)
    (k : String) : keySum L k = mgetD L k 0 := by
  induction L with
  | nil => rfl
  | cons q rest ih =>
    rw [List.map_cons, List.nodup_cons] at hnd
    by_cases hq : q.1 = k
    · rw [keySum, if_pos hq, keySum_eq_zero (hq ▸ hnd.1)]
      unfold mgetD mget
      rw [if_pos hq]
      rfl
    · rw [keySum, if_neg hq, ih hnd.2]
      rcases q with ⟨a, b⟩
      simp only at hq
      unfold mgetD
      rw [show mget ((a, b) :: rest) k = if a = k then some b else mget rest k from rfl,
          if_neg hq]
      omega

theorem nested_foldl_eq_flat (li : OMap (OMap Nat)) :
    ∀ (m : OMap Nat),
      li.foldl
        (fun acc p => p.2.foldl (fun acc2 q => mset acc2 q.1 (mgetD acc2 q.1 0 + q.2)) acc) m
      = (li.flatMap (fun p => p.2)).foldl
          (fun acc2 q => mset acc2 q.1 (mgetD acc2 q.1 0 + q.2)) m := by
  induction li with
  | nil => intro m; rfl
  | cons p rest ih =>
    intro m
    rw [List.foldl_cons, ih, List.flatMap_cons, List.foldl_append]

theorem flat_foldl_mgetD (L : List (String × Nat)) :
    ∀ (m : OMap Nat) (k : String),
      mgetD (L.foldl (fun acc2 q => mset acc2 q.1 (mgetD acc2 q.1 0 + q.2)) m) k 0
        = mgetD m k 0 + keySum L k := by
  induction L with
  | nil => intro m k; simp [keySum]
  | cons q rest ih =>
    intro m k
    rw [List.foldl_cons, ih]
    have hm : mgetD (mset m q.1 (mgetD m q.1 0 + q.2)) k 0
        = mgetD m k 0 + (if q.1 = k then q.2 else 0) := by
      unfold mgetD
      rw [mget_mset]
      by_cases hq : q.1 = k
      · rw [if_pos hq, if_pos hq, hq]
        simp
      · rw [if_neg hq, if_neg hq]
        omega
    rw [hm, keySum]
    omega

theorem keySum_flatMap (li : OMap (OMap Nat)) (tl : String)
    (hio : ∀ p ∈ li, ((p.2 : OMap Nat).map Prod.fst).Nodup) :
    keySum (li.flatMap (fun p => p.2)) tl = totalInto li tl := by
  induction li with
  | nil => rfl
  | cons p rest ih =>
    rw [List.flatMap_cons, keySum_append, totalInto]
    rw [keySum_eq_mgetD (hio p (List.mem_cons_self _ _)) tl]
    rw [ih (fun q hq => hio q (List.mem_cons_of_mem _ hq))]

theorem mgetD_buildIncomingCount (li : OMap (OMap Nat)) (tl : String)
    (hio : ∀ p ∈ li, ((p.2 : OMap Nat).map Prod.fst).Nodup) :
    mgetD (buildIncomingCount li) tl 0 = totalInto li tl := by
  unfold buildIncomingCount
  rw [nested_foldl_eq_flat, flat_foldl_mgetD, keySum_flatMap li tl hio]
  simp [mgetD, mget]

/-! Counting: the effect of the edge fold of `buildLayerImports` -/

theorem mmodify_none {α : Type} {m : OMap α} {k : String} {f : α → α}
    (h : mget m k = none) : mmodify m k f = m := by
  induction m with
  | nil => rfl
  | cons hd rest ih =>
    rcases hd with ⟨a, b⟩
    by_cases ha : a = k
    · rw [show mget ((a, b) :: rest) k = if a = k then some b else mget rest k from rfl,
          if_pos ha] at h
      simp at h
    · rw [show mget ((a, b) :: rest) k = if a = k then some b else mget rest k from rfl,
          if_neg ha] at h
      rw [show mmodify ((a, b) :: rest) k f
          = if a = k then (a, f b) :: rest else (a, b) :: mmodify rest k f from rfl,
          if_neg ha, ih h]

theorem totalInto_mmodify {m : OMap (OMap Nat)} {k : String} (f : OMap Nat → OMap Nat)
    {im : OMap Nat} (h : mget m k = some im) (tl : String) :
    totalInto (mmodify m k f) tl + mgetD im tl 0
      = totalInto m tl + mgetD (f im) tl 0 := by
  induction m with
  | nil => simp [mget] at h
  | cons hd rest ih =>
    rcases hd with ⟨a, b⟩
    by_cases ha : a = k
    · rw [show mget ((a, b) :: rest) k = if a = k then some b else mget rest k from rfl,
          if_pos ha] at h
      have hb : b = im := by simpa using h
      subst hb
      rw [show mmodify ((a, b) :: rest) k f
          = if a = k then (a, f b) :: rest else (a, b) :: mmodify rest k f from rfl,
          if_pos ha]
      show mgetD (f b) tl 0 + totalInto rest tl + mgetD b tl 0
          = mgetD b tl 0 + totalInto rest tl + mgetD (f b) tl 0
      omega
    · rw [show mget ((a, b) :: rest) k = if a = k then some b else mget rest k from rfl,
          if_neg ha] at h
      rw [show mmodify ((a, b) :: rest) k f
          = if a = k then (a, f b) :: rest else (a, b) :: mmodify rest k f from rfl,
          if_neg ha]
      show mgetD b tl 0 + totalInto (mmodify rest k f) tl + mgetD im tl 0
          = mgetD b tl 0 + totalInto rest tl + mgetD (f im) tl 0
      have := ih h
      omega

theorem keys_layerImportsStep (graph : DependencyGraph) (m : OMap (OMap Nat))
    (e : DependencyEdge) :
    (layerImportsStep graph m e).map Prod.fst = m.map Prod.fst := by
  unfold layerImportsStep
  cases mget graph.nodes e.«from» with
  | none => rfl
  | some sn =>
    cases mget graph.nodes e.«to» with
    | none => rfl
    | some tn =>
      dsimp only
      cases sn.layer with
      | none => rfl
      | some fl =>
        cases tn.layer with
        | none => rfl
        | some tl2 =>
          dsimp only
          by_cases hft : fl = tl2
          · rw [if_pos hft]
          · rw [if_neg hft, keys_mmodify]

theorem totalInto_layerImportsStep (graph : DependencyGraph) (m : OMap (OMap Nat))
    (e : DependencyEdge) (tl : String) :
    totalInto (layerImportsStep graph m e) tl
      = totalInto m tl + econtrib graph (m.map Prod.fst) tl e := by
  unfold layerImportsStep econtrib
  cases mget graph.nodes e.«from» with
  | none => simp
  | some sn =>
    cases mget graph.nodes e.«to» with
    | none => simp
    | some tn =>
      dsimp only
      cases sn.layer with
      | none => simp
      | some fl =>
        cases tn.layer with
        | none => simp
        | some tl2 =>
          dsimp only
          by_cases hft : fl = tl2
          · rw [if_pos hft, if_pos hft]
            omega
          · rw [if_neg hft, if_neg hft]
            cases hm : mget m fl with
            | none =>
              rw [mmodify_none hm]
              have hc : (m.map Prod.fst).contains fl = false := by
                cases hcc : (m.map Prod.fst).contains fl with
                | false => rfl
                | true =>
                  have h2 := mget_isSome_of_contains hcc
                  rw [hm] at h2
                  simp at h2
              rw [hc]
              simp
            | some im =>
              have hc : (m.map Prod.fst).contains fl = true := contains_of_mget_eq_some hm
              have hstep := totalInto_mmodify
                (fun im => mset im tl2 (mgetD im tl2 0 + e.weight)) hm tl
              have hmv : mgetD (mset im tl2 (mgetD im tl2 0 + e.weight)) tl 0
                  = mgetD im tl 0 + (if tl2 = tl then e.weight else 0) := by
                unfold mgetD
                rw [mget_mset]
                by_cases ht : tl2 = tl
                · rw [if_pos ht, if_pos ht]
                  subst ht
                  simp
                · rw [if_neg ht, if_neg ht]
                  omega
              rw [hmv] at hstep
              simp only [hc, if_true]
              omega

theorem totalInto_foldl (graph : DependencyGraph) :
    ∀ (E : List DependencyEdge) (m : OMap (OMap Nat)) (tl : String),
      totalInto (E.foldl (layerImportsStep graph) m) tl
        = totalInto m tl + sumContrib graph (m.map Prod.fst) tl E := by
  intro E
  induction E with
  | nil => intro m tl; simp [sumContrib]
  | cons e rest ih =>
    intro m tl
    rw [List.foldl_cons, ih, keys_layerImportsStep, totalInto_layerImportsStep,
        sumContrib]
    omega

theorem init_values_empty (layers : List ArchitectureLayer) :
    ∀ (m : OMap (OMap Nat)), (∀ p ∈ m, p.2 = ([] : OMap Nat)) →
      ∀ p ∈ layers.foldl (fun m l => mset m l.id ([] : OMap Nat)) m,
        p.2 = ([] : OMap Nat) := by
  induction layers with
  | nil => intro m hm p hp; exact hm p hp
  | cons l rest ih =>
    intro m hm p hp
    refine ih (mset m l.id []) ?_ p hp
    intro r hr
    rcases mem_mset hr with hr | hr
    · exact hm r hr
    · rw [hr]

theorem totalInto_empty_values : ∀ {m : OMap (OMap Nat)},
    (∀ p ∈ m, p.2 = ([] : OMap Nat)) → ∀ (tl : String), totalInto m tl = 0 := by
  intro m
  induction m with
  | nil => intro _ tl; rfl
  | cons p rest ih =>
    intro h tl
    rw [totalInto, h p (List.mem_cons_self _ _), ih (fun q hq => h q (List.mem_cons_of_mem _ hq)) tl]
    simp [mgetD, mget]

theorem keys_init_mem (layers : List ArchitectureLayer) :
    ∀ (m : OMap (OMap Nat)) (fl : String),
      fl ∈ (layers.foldl (fun m l => mset m l.id ([] : OMap Nat)) m).map Prod.fst ↔
        fl ∈ m.map Prod.fst ∨ fl ∈ layers.map (fun a => a.id) := by
  induction layers with
  | nil => intro m fl; simp
  | cons l rest ih =>
    intro m fl
    rw [List.foldl_cons, ih (mset m l.id []) fl]
    have hone : fl ∈ (mset m l.id ([] : OMap Nat)).map Prod.fst ↔
        fl ∈ m.map Prod.fst ∨ fl = l.id := by
      rw [keys_mset]
      split
      · rename_i hc
        constructor
        · exact Or.inl
        · rintro (h | rfl)
          · exact h
          · simpa using hc
      · simp [List.mem_append]
    rw [hone]
    simp [List.mem_cons, or_assoc]

theorem mem_mmodify {α : Type} {m : OMap α} {k : String} {f : α → α} {q : String × α}
    (h : q ∈ mmodify m k f) : q ∈ m ∨ ∃ v, mget m k = some v ∧ q = (k, f v) := by
  induction m with
  | nil => simp [mmodify] at h
  | cons hd rest ih =>
    rcases hd with ⟨a, b⟩
    by_cases ha : a = k
    · rw [show mmodify ((a, b) :: rest) k f
          = if a = k then (a, f b) :: rest else (a, b) :: mmodify rest k f from rfl,
          if_pos ha] at h
      rcases List.mem_cons.mp h with rfl | h
      · subst ha
        exact Or.inr ⟨b, by rw [show mget ((a, b) :: rest) a
            = if a = a then some b else mget rest a from rfl, if_pos rfl], rfl⟩
      · exact Or.inl (List.mem_cons_of_mem _ h)
    · rw [show mmodify ((a, b) :: rest) k f
          = if a = k then (a, f b) :: rest else (a, b) :: mmodify rest k f from rfl,
          if_neg ha] at h
      rcases List.mem_cons.mp h with rfl | h
      · exact Or.inl (List.mem_cons_self _ _)
      · rcases ih h with h2 | ⟨v, hv, hq⟩
        · exact Or.inl (List.mem_cons_of_mem _ h2)
        · exact Or.inr ⟨v, by rw [show mget ((a, b) :: rest) k
            = if a = k then some b else mget rest k from rfl, if_neg ha]; exact hv, hq⟩

theorem nodup_keys_mset {α : Type} {im : OMap α} (h : (im.map Prod.fst).Nodup)
    (k : String) (v : α) : ((mset im k v).map Prod.fst).Nodup := by
  rw [keys_mset]
  split
  · exact h
  · rename_i hc
    rw [List.nodup_append]
    refine ⟨h, List.nodup_singleton _, ?_⟩
    intro a ha hb
    rw [List.mem_singleton] at hb
    subst hb
    exact hc (by simpa using ha)

theorem innerOk_step (graph : DependencyGraph) {m : OMap (OMap Nat)}
    (h : ∀ p ∈ m, ((p.2 : OMap Nat).map Prod.fst).Nodup) (e : DependencyEdge) :
    ∀ p ∈ layerImportsStep graph m e, ((p.2 : OMap Nat).map Prod.fst).Nodup := by
  unfold layerImportsStep
  cases mget graph.nodes e.«from» with
  | none => exact h
  | some sn =>
    cases mget graph.nodes e.«to» with
    | none => exact h
    | some tn =>
      dsimp only
      cases sn.layer with
      | none => exact h
      | some fl =>
        cases tn.layer with
        | none => exact h
        | some tl2 =>
          dsimp only
          by_cases hft : fl = tl2
          · rw [if_pos hft]
            exact h
          · rw [if_neg hft]
            intro p hp
            rcases mem_mmodify hp with hp | ⟨v, hv, rfl⟩
            · exact h p hp
            · exact nodup_keys_mset (h (fl, v) (mem_of_mget_eq_some hv)) _ _

theorem innerOk_fold (graph : DependencyGraph) :
    ∀ (E : List DependencyEdge) (m : OMap (OMap Nat)),
      (∀ p ∈ m, ((p.2 : OMap Nat).map Prod.fst).Nodup) →
      ∀ p ∈ E.foldl (layerImportsStep graph) m, ((p.2 : OMap Nat).map Prod.fst).Nodup := by
  intro E
  induction E with
  | nil => intro m hm; exact hm
  | cons e rest ih =>
    intro m hm
    rw [List.foldl_cons]
    exact ih _ (innerOk_step graph hm e)

theorem spec_fold (graph : DependencyGraph) :
    ∀ (E : List DependencyEdge) (tl : String) (acc : Nat),
      E.foldl
        (fun acc e =>
          match mget graph.nodes e.«from», mget graph.nodes e.«to» with
          | some sn, some tn =>
            match sn.layer, tn.layer with
            | some fl, some tl2 =>
              if fl ≠ tl2 ∧ tl2 = tl then acc + e.weight else acc
            | _, _ => acc
          | _, _ => acc) acc
        = acc + specSum graph tl E := by
  intro E
  induction E with
  | nil => intro tl acc; simp [specSum]
  | cons e rest ih =>
    intro tl acc
    rw [List.foldl_cons, ih, specSum]
    have hstep :
        (match mget graph.nodes e.«from», mget graph.nodes e.«to» with
          | some sn, some tn =>
            match sn.layer, tn.layer with
            | some fl, some tl2 =>
              if fl ≠ tl2 ∧ tl2 = tl then acc + e.weight else acc
            | _, _ => acc
          | _, _ => acc)
        = acc + specContrib graph tl e := by
      unfold specContrib
      cases mget graph.nodes e.«from» with
      | none => simp
      | some sn =>
        cases mget graph.nodes e.«to» with
        | none => simp
        | some tn =>
          dsimp only
          cases sn.layer with
          | none => simp
          | some fl =>
            cases tn.layer with
            | none => simp
            | some tl2 =>
              dsimp only
              by_cases hx : fl ≠ tl2 ∧ tl2 = tl
              · rw [if_pos hx, if_pos hx]
              · rw [if_neg hx, if_neg hx]
                omega
    rw [hstep]
    omega

theorem inboundWeightSpec_eq_specSum (graph : DependencyGraph) (tl : String) :
    inboundWeightSpec graph tl = specSum graph tl graph.edges := by
  unfold inboundWeightSpec
  rw [spec_fold]
  omega

theorem sumContrib_eq_specSum (graph : DependencyGraph) (K : List String) (tl : String)
    (H : ∀ p ∈ graph.nodes, ∀ l, p.2.layer = some l → K.contains l = true) :
    ∀ E, sumContrib graph K tl E = specSum graph tl E := by
  intro E
  induction E with
  | nil => rfl
  | cons e rest ih =>
    rw [sumContrib, specSum, ih]
    have hstep : econtrib graph K tl e = specContrib graph tl e := by
      unfold econtrib specContrib
      cases hf : mget graph.nodes e.«from» with
      | none => rfl
      | some sn =>
        cases mget graph.nodes e.«to» with
        | none => rfl
        | some tn =>
          dsimp only
          cases hl : sn.layer with
          | none => rfl
          | some fl =>
            cases tn.layer with
            | none => rfl
            | some tl2 =>
              dsimp only
              by_cases hft : fl = tl2
              · rw [if_pos hft, if_neg (show ¬(fl ≠ tl2 ∧ tl2 = tl) from
                  fun hx => hx.1 hft)]
              · have hcf : K.contains fl = true :=
                  H (e.«from», sn) (mem_of_mget_eq_some hf) fl hl
                rw [if_neg hft, hcf]
                show (if tl2 = tl then e.weight else 0) = _
                by_cases ht : tl2 = tl
                · rw [if_pos ht, if_pos (show fl ≠ tl2 ∧ tl2 = tl from ⟨hft, ht⟩)]
                · rw [if_neg ht, if_neg (show ¬(fl ≠ tl2 ∧ tl2 = tl) from
                    fun hx => ht hx.2)]
    rw [hstep]

theorem incoming_eq_spec (layers : List ArchitectureLayer) (graph : DependencyGraph)
    (H : ∀ p ∈ graph.nodes,
      (p.2.layer.all (fun l => (layers.map (fun a => a.id)).contains l)) = true)
    (tl : String) :
    mgetD (buildIncomingCount (buildLayerImports layers graph)) tl 0
      = inboundWeightSpec graph tl := by
  have hio : ∀ p ∈ buildLayerImports layers graph,
      ((p.2 : OMap Nat).map Prod.fst).Nodup := by
    apply innerOk_fold
    intro p hp
    rw [init_values_empty layers [] (by simp) p hp]
    exact List.nodup_nil
  rw [mgetD_buildIncomingCount _ tl hio]
  unfold buildLayerImports
  rw [totalInto_foldl, totalInto_empty_values (init_values_empty layers [] (by simp)) tl]
  have hK : ∀ p ∈ graph.nodes, ∀ l, p.2.layer = some l →
      ((layers.foldl (fun m l => mset m l.id ([] : OMap Nat)) []).map Prod.fst).contains l
        = true := by
    intro p hp l hl
    have h1 := H p hp
    rw [hl] at h1
    have h3 : l ∈ layers.map (fun a => a.id) := by simpa using h1
    have h4 := (keys_init_mem layers [] l).mpr (Or.inr h3)
    simpa using h4
  rw [sumContrib_eq_specSum graph _ tl hK graph.edges,
      inboundWeightSpec_eq_specSum graph tl]
  omega

/-! ## Theorems for the claims -/

/-- **C10.** The result of `buildDependencyGraph` does not depend on its
options argument: the merged `_opts` value is computed and discarded, so
any two option values give identical graphs. -/
theorem c10_options_have_no_effect (files : List ParsedFile) (root : String)
    (o₁ o₂ : PartialGraphOptions) :
    buildDependencyGraph files root o₁ = buildDependencyGraph files root o₂ :=
  rfl

/-- **C6.** The claim fails: the registry in `src/parsers/index.ts`
contains only the TypeScript and Python parsers, so although
`GoParser.canParse`/`JavaParser.canParse` accept `.go`/`.java` files, the
dispatch functions `canParseFile`/`getParserForFile` reject them (while
accepting the TypeScript/JavaScript and Python extensions). -/
theorem c6_go_java_not_dispatched :
    canParseFile "main.go" = false ∧
    canParseFile "Main.java" = false ∧
    (getParserForFile "main.go").isNone = true ∧
    (getParserForFile "Main.java").isNone = true ∧
    goParser.canParse "main.go" = true ∧
    javaParser.canParse "Main.java" = true ∧
    canParseFile "src/a.ts" = true ∧
    canParseFile "src/a.jsx" = true ∧
    canParseFile "src/a.py" = true := by
  decide

/-- **C4 (counterexample).** On the empty analysis the health score is not
100: the global instability of an empty graph is 0, which lies below the
0.1 threshold, so `calculateOverallScore` subtracts 3. -/
theorem c4_counterexample :
    ¬ ((generateHealthReport (createEmptyAnalysis "/repo")).metrics.score = 100) := by
  decide

/-- **C4 (amended).** Analyzing a root with no matching source files
yields an analysis with 0 files analyzed, 0 edges and an empty layer
list, and the health report computed from it has status `healthy` — but
score exactly 97, not 100 (the empty graph's instability 0 triggers the
−3 instability-extremes penalty). -/
theorem c4_empty_analysis (root : String) :
    (createEmptyAnalysis root).filesAnalyzed = 0 ∧
    (createEmptyAnalysis root).graph.edges = [] ∧
    (createEmptyAnalysis root).layers = [] ∧
    (generateHealthReport (createEmptyAnalysis root)).status = .healthy ∧
    (generateHealthReport (createEmptyAnalysis root)).metrics.score = 97 ∧
    (generateHealthReport (createEmptyAnalysis root)).grade = "A" :=
  ⟨rfl, rfl, rfl, rfl, rfl, rfl⟩

/-- **C5 (counterexample).** Node iteration order is not sorted: giving
`buildDependencyGraph` the files `b.ts`, `a.ts` in that order produces a
nodes map iterating as `b.ts`, `a.ts`, which is not ascending by path. -/
theorem c5_counterexample :
    ((buildDependencyGraph [fileB, fileA] "/r" {}).nodes.map Prod.fst
      = ["b.ts", "a.ts"]) ∧
    ascChain ((buildDependencyGraph [fileB, fileA] "/r" {}).nodes.map Prod.fst)
      = false := by
  decide

/-- Witness for C1 at a concrete input. -/
theorem c1_witness :
    ("c.ts", nodeC) ∈ (buildDependencyGraph [fileC, fileD] "/r" {}).nodes ∧
    (nodeC.outDegree
        = sumWFrom (buildDependencyGraph [fileC, fileD] "/r" {}).edges "c.ts" ∧
      nodeC.inDegree
        = sumWTo (buildDependencyGraph [fileC, fileD] "/r" {}).edges "c.ts") :=
  ⟨by decide,
   c1_degrees_are_weight_sums [fileC, fileD] "/r" {} ("c.ts", nodeC) (by decide)⟩

/-- Witness for C2 at a concrete input. -/
theorem c2_witness :
    edgeCD ∈ (buildDependencyGraph [fileC, fileD] "/r" {}).edges ∧
    (edgeCD.«from» ∈ (buildDependencyGraph [fileC, fileD] "/r" {}).nodes.map Prod.fst ∧
      edgeCD.«to» ∈ (buildDependencyGraph [fileC, fileD] "/r" {}).nodes.map Prod.fst) :=
  ⟨by decide,
   (c2_edges_consistent [fileC, fileD] "/r" {}).1 edgeCD (by decide)⟩

/-- C3 (amended): every cycle recorded by `buildDependencyGraph` in
`circularDependencies` has at least two entries (so k ≥ 1, not the
claimed k ≥ 2), its first entry equals its last entry, and every
consecutive pair of entries is connected by an edge of the graph's edge
list. -/
theorem c3_cycles_are_edge_paths (files : List ParsedFile) (root : String)
    (o : PartialGraphOptions) :
    ∀ c ∈ (buildDependencyGraph files root o).circularDependencies,
      2 ≤ c.length ∧ c.head? = c.getLast? ∧
        List.Chain' (fun a b => ∃ e ∈ (buildDependencyGraph files root o).edges,
          e.«from» = a ∧ e.«to» = b) c := by
  intro c hc
  rw [build_circular_def] at hc
  exact detect_cycles_ok _ _ c hc

/-- C3 counterexample: a file importing itself produces the recorded
cycle ["a.ts", "a.ts"], which has only two entries (k = 1), refuting the
claim's "k is at least 2" (which would force at least three entries). -/
theorem c3_counterexample :
    ¬ (∀ c ∈ (buildDependencyGraph [fileSelf] "/r" {}).circularDependencies,
        3 ≤ c.length) := by
  decide

/-- Witness for C3 at a concrete input. -/
theorem c3_witness :
    ["a.ts", "a.ts"] ∈ (buildDependencyGraph [fileSelf] "/r" {}).circularDependencies ∧
    (2 ≤ (["a.ts", "a.ts"] : List String).length ∧
      (["a.ts", "a.ts"] : List String).head?
          = (["a.ts", "a.ts"] : List String).getLast? ∧
      List.Chain' (fun a b => ∃ e ∈ (buildDependencyGraph [fileSelf] "/r" {}).edges,
        e.«from» = a ∧ e.«to» = b) ["a.ts", "a.ts"]) :=
  ⟨by decide, c3_cycles_are_edge_paths [fileSelf] "/r" {} ["a.ts", "a.ts"] (by decide)⟩

/-- C7 (amended): for `from`-imports with a non-trivial module path the
claimed rule holds (external iff not relative and no dot in the module
path), and for `source = "."` it degenerates to external iff not
relative; but for simple `import A` records `isExternal` is simply the
negation of `isRelative` and ignores dots entirely. -/
theorem c7_python_is_external (content filePath projectRoot : String) :
    ∀ imp ∈ (pythonParse content filePath projectRoot).imports,
      (imp.type = .pythonImport → imp.isExternal = !imp.isRelative) ∧
      (imp.type = .pythonFrom → imp.source ≠ "." →
        imp.isExternal = (!imp.isRelative && !(imp.source.data.contains '.'))) ∧
      (imp.type = .pythonFrom → imp.source = "." →
        imp.isExternal = !imp.isRelative) := by
  intro imp hmem
  have hsplit : imp ∈ extractSimpleImports (removeCommentsAndStrings content) content
      ∨ imp ∈ extractFromImports (removeCommentsAndStrings content) content := by
    have : (pythonParse content filePath projectRoot).imports
        = extractSimpleImports (removeCommentsAndStrings content) content ++
            extractFromImports (removeCommentsAndStrings content) content := rfl
    rw [this] at hmem
    exact List.mem_append.mp hmem
  rcases hsplit with hs | hf
  · rcases mem_extractSimpleImports hs with ⟨s, l, rfl⟩
    refine ⟨fun _ => isExternalImport_eq_not_rel s, fun ht => ?_, fun ht => ?_⟩ <;>
      simp [createImport] at ht
  · rcases mem_extractFromImports hf with ⟨htype, mp, hsrc, hrel, hext⟩
    refine ⟨fun ht => ?_, fun _ hne => ?_, fun _ heq => ?_⟩
    · rw [htype] at ht
      simp at ht
    · by_cases hmp : mp = ""
      · rw [hmp] at hsrc
        simp at hsrc
        exact absurd hsrc hne
      · rw [if_neg hmp] at hsrc
        rw [hext, hrel, hsrc]
    · by_cases hmp : mp = ""
      · rw [hext, hrel, hmp]
        decide
      · rw [if_neg hmp] at hsrc
        rw [hsrc] at heq
        rw [hext, hrel, heq]
        decide

/-- C7 counterexample: `import os.path` yields a record with
`isExternal = true` although its module path contains a dot, refuting
the claimed iff for simple imports. -/
theorem c7_counterexample :
    ¬ (∀ imp ∈ (pythonParse "import os.path\n" "/r/m.py" "/r").imports,
        imp.isExternal = (!imp.isRelative && !(imp.source.data.contains '.'))) := by
  decide

/-- Witness for C7 at a concrete input. -/
theorem c7_witness :
    createImport "os.path" .pythonImport 1
        ∈ (pythonParse "import os.path\n" "/r/m.py" "/r").imports ∧
    ((createImport "os.path" .pythonImport 1).type = .pythonImport →
      (createImport "os.path" .pythonImport 1).isExternal
        = !(createImport "os.path" .pythonImport 1).isRelative) :=
  ⟨by decide,
   (c7_python_is_external "import os.path\n" "/r/m.py" "/r"
      (createImport "os.path" .pythonImport 1) (by decide)).1⟩

/-- C8 (amended): for every user-supplied grouping rule whose pattern is a
plain glob, the converted rule has level 0 and its regex matches exactly
as `globAmendedMatch` describes: `*` matches a run of non-slash
characters, but `**` matches one arbitrary character followed by a run of
non-slash characters (not any run including slashes), case-insensitively
and anchored at the start. -/
theorem c8_glob_semantics (g : GroupingRule) (s : String)
    (hp : plainGlob g.pattern = true) :
    (groupingToLayerRule g).level = 0 ∧
    jsRegexTestCI (groupingToLayerRule g).pattern s
      = globAmendedMatch g.pattern.data s.data := by
  refine ⟨rfl, ?_⟩
  have h1 : (groupingToLayerRule g).pattern = ⟨rep3 (rep2 (rep1 g.pattern.data))⟩ := rfl
  rw [h1]
  unfold jsRegexTestCI
  have h2 : (⟨rep3 (rep2 (rep1 g.pattern.data))⟩ : String).data
      = rep3 (rep2 (rep1 g.pattern.data)) := rfl
  rw [h2, rep_eq_render, parse_render _ (compileGlob_all_rlitOk g.pattern.data hp)]
  exact matchToks_compileGlob g.pattern.data s.data

/-- C8 counterexample: under the claimed semantics `src/**/models` matches
`src/a/b/models/x.ts`, but the regex actually produced by
`groupingToLayerRule` rejects it: the third replace rewrites the `*` of
the `.*` produced for `**`, yielding `.[^/]*`, which cannot span the
slashes. -/
theorem c8_counterexample :
    globSpecMatch "src/**/models".data "src/a/b/models/x.ts".data = true ∧
    jsRegexTestCI (groupingToLayerRule
        { pattern := "src/**/models", label := "Models" }).pattern
      "src/a/b/models/x.ts" = false := by
  decide

/-- Witness for C8 at a concrete input. -/
theorem c8_witness :
    plainGlob "src/**/models" = true ∧
    ((groupingToLayerRule { pattern := "src/**/models", label := "Models" }).level = 0 ∧
      jsRegexTestCI (groupingToLayerRule
          { pattern := "src/**/models", label := "Models" }).pattern "src/ab/models/x.ts"
        = globAmendedMatch "src/**/models".data "src/ab/models/x.ts".data) :=
  ⟨by decide, c8_glob_semantics { pattern := "src/**/models", label := "Models" }
      "src/ab/models/x.ts" (by decide)⟩

/-- C9: `inferLayerHierarchy` returns the layers sorted ascending by their
aggregate inbound weight (the sum of the weights of cross-layer edges
whose target lies in the layer; same-layer edges contribute nothing, as
`inboundWeightSpec` encodes), reassigns each returned layer's level to its
sorted index, so the result is ascending by level, and is a permutation of
the input up to the level reassignment.  The hypothesis states that every
node's layer is one of the given layers' ids, which `detectLayers`
guarantees for the real pipeline. -/
theorem c9_infer_layer_hierarchy (layers : List ArchitectureLayer)
    (graph : DependencyGraph)
    (H : ∀ p ∈ graph.nodes,
      (p.2.layer.all (fun l => (layers.map (fun a => a.id)).contains l)) = true) :
    List.Pairwise
        (fun a b => inboundWeightSpec graph a.id ≤ inboundWeightSpec graph b.id)
        (inferLayerHierarchy layers graph) ∧
    (inferLayerHierarchy layers graph).map (fun l => l.level)
        = List.range (inferLayerHierarchy layers graph).length ∧
    List.Pairwise (fun a b => a.level < b.level) (inferLayerHierarchy layers graph) ∧
    List.Perm ((inferLayerHierarchy layers graph).map eraseLevel)
      (layers.map eraseLevel) := by
  have hr : inferLayerHierarchy layers graph
      = ((stableSortByKey
            (fun l => mgetD (buildIncomingCount (buildLayerImports layers graph)) l.id 0)
            layers).enum.map (fun p => { p.2 with level := p.1 })) := rfl
  set key : ArchitectureLayer → Nat :=
    fun l => mgetD (buildIncomingCount (buildLayerImports layers graph)) l.id 0 with hkeydef
  set L := stableSortByKey key layers with hLdef
  have hcomp : ((fun l : ArchitectureLayer => l.level)
      ∘ (fun p : Nat × ArchitectureLayer => { p.2 with level := p.1 })) = Prod.fst := by
    funext p
    rfl
  refine ⟨?_, ?_, ?_, ?_⟩
  · rw [hr]
    have h1 : List.Pairwise (fun a b => key a ≤ key b) L := stableSort_pairwise key layers
    have h2 := pairwise_enumFrom_relabel
      (R := fun a b => key a ≤ key b) (fun a b i j hab => hab) L 0 h1
    have hkey : ∀ l : ArchitectureLayer, key l = inboundWeightSpec graph l.id :=
      fun l => incoming_eq_spec layers graph H l.id
    exact h2.imp (fun hab => by rw [← hkey, ← hkey]; exact hab)
  · rw [hr, List.map_map, hcomp, List.enum_map_fst, List.length_map, List.enum_length]
  · rw [hr]
    have hlev : ((L.enum.map (fun p => { p.2 with level := p.1 })).map
        (fun l : ArchitectureLayer => l.level)) = List.range L.length := by
      rw [List.map_map, hcomp, List.enum_map_fst]
    have hpl : List.Pairwise (· < ·)
        ((L.enum.map (fun p => { p.2 with level := p.1 })).map
          (fun l : ArchitectureLayer => l.level)) := by
      rw [hlev]
      exact List.pairwise_lt_range L.length
    exact (List.pairwise_map).mp hpl
  · rw [hr]
    have hmm : (L.enum.map (fun p => { p.2 with level := p.1 })).map eraseLevel
        = L.map eraseLevel := by
      rw [List.map_map]
      have hcomp2 : (eraseLevel ∘ (fun p : Nat × ArchitectureLayer =>
          { p.2 with level := p.1 })) = (eraseLevel ∘ Prod.snd) := by
        funext p
        rfl
      rw [hcomp2, ← List.map_map, List.enum_map_snd]
    rw [hmm]
    exact (stableSort_perm key layers).map eraseLevel

/-- Witness for C9 at a concrete input. -/
theorem c9_witness :
    (∀ p ∈ layerGraph.nodes,
      (p.2.layer.all
        (fun l => (([layerDb, layerApi].map (fun a => a.id)) : List String).contains l))
        = true) ∧
    (List.Pairwise
        (fun a b => inboundWeightSpec layerGraph a.id ≤ inboundWeightSpec layerGraph b.id)
        (inferLayerHierarchy [layerDb, layerApi] layerGraph) ∧
      (inferLayerHierarchy [layerDb, layerApi] layerGraph).map (fun l => l.level)
        = List.range (inferLayerHierarchy [layerDb, layerApi] layerGraph).length ∧
      List.Pairwise (fun a b => a.level < b.level)
        (inferLayerHierarchy [layerDb, layerApi] layerGraph) ∧
      List.Perm ((inferLayerHierarchy [layerDb, layerApi] layerGraph).map eraseLevel)
        ([layerDb, layerApi].map eraseLevel)) :=
  ⟨by decide, c9_infer_layer_hierarchy [layerDb, layerApi] layerGraph (by decide)⟩

end ArchPulse
